import Mathlib

/-!
Verification development for the ingestion-and-storage core of a Bitcoin
blockchain indexer (electrs-style).  The Rust source is shallowly embedded:
pure functions become Lean functions, machine integers become `Nat` with
explicit width bounds where relevant, fallible code returns `Option` or
`Except`, and external crates (SHA-256, consensus codecs, the bitcoin wire
types) are abstracted as opaque data fields or function parameters.
-/

namespace Electrs

/-- A byte string: list of byte values (each intended `< 256`). -/
abbrev Bytes := List Nat

/-- 32-byte SHA-256 style hash (`type FullHash = [u8; 32]` in `util/mod.rs`);
byte-length is not enforced by the type. -/
abbrev FullHash := List Nat

/-- Fixed-width big-endian digits of `v` in base 256 (most significant first).
Mirrors bincode `with_big_endian` fixed-int encoding for `v < 256 ^ w`. -/
def toDigitsBE : Nat → Nat → Bytes
  | 0, _ => []
  | w + 1, v => v / 256 ^ w :: toDigitsBE w (v % 256 ^ w)

/-- Fixed-width little-endian digits of `v` in base 256 (least significant
first).  Mirrors bincode default fixed-int encoding. -/
def toDigitsLE : Nat → Nat → Bytes
  | 0, _ => []
  | w + 1, v => v % 256 :: toDigitsLE w (v / 256)

def ser_u16_le (v : Nat) : Bytes := toDigitsLE 2 v
def ser_u32_le (v : Nat) : Bytes := toDigitsLE 4 v
def ser_u64_le (v : Nat) : Bytes := toDigitsLE 8 v

/-- bincode 1.3 `bincode::options()` **varint** encoding of an unsigned
integer (the `Options` builder defaults to `VarintEncoding`, unlike the
legacy `bincode::serialize`, which is fixed-width): a value `≤ 250` is a
single byte; `251 ≤ v < 2^16` is the byte `251` followed by the 2-byte
integer; `2^16 ≤ v < 2^32` is `252` followed by the 4-byte integer;
larger `u64` values are `253` followed by the 8-byte integer.  The
multi-byte integer uses the configured endianness — big-endian here,
matching `.with_big_endian()` in `TxHistoryRow::into_row`. -/
def varintBE (n : Nat) : Bytes :=
  if n ≤ 250 then [n]
  else if n < 2 ^ 16 then 251 :: toDigitsBE 2 n
  else if n < 2 ^ 32 then 252 :: toDigitsBE 4 n
  else 253 :: toDigitsBE 8 n

/-- Strict lexicographic (shortlex-free, true byte-wise) order on byte
strings, as RocksDB compares keys. -/
def bytesLt : Bytes → Bytes → Bool
  | _, [] => false
  | [], _ :: _ => true
  | a :: as, b :: bs => decide (a < b) || (a == b && bytesLt as bs)

def bytesLe (x y : Bytes) : Bool := bytesLt x y || x == y

theorem bytesLt_cons_cons (a b : Nat) (as bs : Bytes) :
    bytesLt (a :: as) (b :: bs) = (decide (a < b) || (a == b && bytesLt as bs)) :=
  rfl

theorem bytesLt_append_same (p xs ys : Bytes) :
    bytesLt (p ++ xs) (p ++ ys) = bytesLt xs ys := by
  induction p with
  | nil => rfl
  | cons a p ih =>
    simp only [List.cons_append, bytesLt_cons_cons, ih]
    simp

theorem bytesLt_append_of_lt {xs ys : Bytes} (hlen : xs.length = ys.length)
    (h : bytesLt xs ys = true) (as bs : Bytes) :
    bytesLt (xs ++ as) (ys ++ bs) = true := by
  induction xs generalizing ys with
  | nil =>
    cases ys with
    | nil => simp [bytesLt] at h
    | cons y ys => simp at hlen
  | cons x xs ih =>
    cases ys with
    | nil => simp at hlen
    | cons y ys =>
      simp only [bytesLt, Bool.or_eq_true, Bool.and_eq_true, decide_eq_true_eq,
        beq_iff_eq] at h
      simp only [List.cons_append, bytesLt, Bool.or_eq_true, Bool.and_eq_true,
        decide_eq_true_eq, beq_iff_eq]
      rcases h with h | ⟨rfl, h⟩
      · exact Or.inl h
      · exact Or.inr ⟨rfl, ih (by simpa using hlen) h⟩

theorem toDigitsBE_length (w v : Nat) : (toDigitsBE w v).length = w := by
  induction w generalizing v with
  | zero => rfl
  | succ w ih => simp [toDigitsBE, ih]

/-- Big-endian fixed-width digit strings compare like the numbers they
encode (for in-range numbers). -/
theorem toDigitsBE_mono {w v1 v2 : Nat} (h : v1 < v2) (hb : v2 < 256 ^ w) :
    bytesLt (toDigitsBE w v1) (toDigitsBE w v2) = true := by
  induction w generalizing v1 v2 with
  | zero => simp [pow_zero] at hb; omega
  | succ w ih =>
    have hpow : 0 < 256 ^ w := Nat.pos_pow_of_pos w (by norm_num)
    have hdivle : v1 / 256 ^ w ≤ v2 / 256 ^ w :=
      Nat.div_le_div_right (Nat.le_of_lt h)
    simp only [toDigitsBE, bytesLt, Bool.or_eq_true, Bool.and_eq_true,
      decide_eq_true_eq, beq_iff_eq]
    rcases Nat.lt_or_ge (v1 / 256 ^ w) (v2 / 256 ^ w) with hlt | hge
    · exact Or.inl hlt
    · have heq : v1 / 256 ^ w = v2 / 256 ^ w := Nat.le_antisymm hdivle hge
      have h1 := Nat.div_add_mod v1 (256 ^ w)
      have h2 := Nat.div_add_mod v2 (256 ^ w)
      rw [heq] at h1
      have hmodlt : v1 % 256 ^ w < v2 % 256 ^ w := by omega
      exact Or.inr ⟨heq, ih hmodlt (Nat.mod_lt _ hpow)⟩

theorem bytesLt_asymm : ∀ {x y : Bytes},
    bytesLt x y = true → bytesLt y x = false := by
  intro x
  induction x with
  | nil => intro y h; cases y with
    | nil => simp [bytesLt] at h
    | cons b bs => simp [bytesLt]
  | cons a as ih =>
    intro y h
    cases y with
    | nil => simp [bytesLt] at h
    | cons b bs =>
      simp only [bytesLt, Bool.or_eq_true, Bool.and_eq_true,
        decide_eq_true_eq, beq_iff_eq] at h ⊢
      rcases h with h | ⟨rfl, h⟩
      · have h1 : ¬ b < a := by omega
        have h2 : (b == a) = false := by simp; omega
        simp [h1, h2]
      · have h1 : ¬ a < a := by omega
        simp [h1, ih h]

theorem bytesLt_head_lt {a b : Nat} (h : a < b) (as bs : Bytes) :
    bytesLt (a :: as) (b :: bs) = true := by
  simp [bytesLt_cons_cons, h]

theorem bytesLt_cons_same (c : Nat) (xs ys : Bytes) :
    bytesLt (c :: xs) (c :: ys) = bytesLt xs ys := by
  simp [bytesLt_cons_cons]

/-- Varint big-endian encodings of `a < b` (both in `u64` range) differ at a
byte inside their common length — a shorter encoding is never a prefix of a
longer one, as the lead byte (value `≤ 250` vs. discriminator `251`/`252`/
`253`) already differs — so strict lexicographic order survives appending
arbitrary suffixes. -/
theorem varintBE_append_mono {a b : Nat} (h : a < b) (hb : b < 2 ^ 64)
    (r1 r2 : Bytes) :
    bytesLt (varintBE a ++ r1) (varintBE b ++ r2) = true := by
  unfold varintBE
  by_cases ha0 : a ≤ 250
  · rw [if_pos ha0]
    by_cases hb0 : b ≤ 250
    · rw [if_pos hb0]
      exact bytesLt_head_lt h r1 r2
    · rw [if_neg hb0]
      by_cases hb16 : b < 2 ^ 16
      · rw [if_pos hb16]
        exact bytesLt_head_lt (by omega) _ _
      · rw [if_neg hb16]
        by_cases hb32 : b < 2 ^ 32
        · rw [if_pos hb32]
          exact bytesLt_head_lt (by omega) _ _
        · rw [if_neg hb32]
          exact bytesLt_head_lt (by omega) _ _
  · rw [if_neg ha0]
    have hb0 : ¬ b ≤ 250 := by omega
    rw [if_neg hb0]
    by_cases ha16 : a < 2 ^ 16
    · rw [if_pos ha16]
      by_cases hb16 : b < 2 ^ 16
      · rw [if_pos hb16]
        show bytesLt (251 :: (toDigitsBE 2 a ++ r1))
          (251 :: (toDigitsBE 2 b ++ r2)) = true
        rw [bytesLt_cons_same]
        exact bytesLt_append_of_lt
          (by rw [toDigitsBE_length, toDigitsBE_length])
          (toDigitsBE_mono h (by simpa using hb16)) r1 r2
      · rw [if_neg hb16]
        by_cases hb32 : b < 2 ^ 32
        · rw [if_pos hb32]
          exact bytesLt_head_lt (by norm_num) _ _
        · rw [if_neg hb32]
          exact bytesLt_head_lt (by norm_num) _ _
    · rw [if_neg ha16]
      have hb16 : ¬ b < 2 ^ 16 := by omega
      rw [if_neg hb16]
      by_cases ha32 : a < 2 ^ 32
      · rw [if_pos ha32]
        by_cases hb32 : b < 2 ^ 32
        · rw [if_pos hb32]
          show bytesLt (252 :: (toDigitsBE 4 a ++ r1))
            (252 :: (toDigitsBE 4 b ++ r2)) = true
          rw [bytesLt_cons_same]
          exact bytesLt_append_of_lt
            (by rw [toDigitsBE_length, toDigitsBE_length])
            (toDigitsBE_mono h (by simpa using hb32)) r1 r2
        · rw [if_neg hb32]
          exact bytesLt_head_lt (by norm_num) _ _
      · rw [if_neg ha32]
        have hb32 : ¬ b < 2 ^ 32 := by omega
        rw [if_neg hb32]
        show bytesLt (253 :: (toDigitsBE 8 a ++ r1))
          (253 :: (toDigitsBE 8 b ++ r2)) = true
        rw [bytesLt_cons_same]
        exact bytesLt_append_of_lt
          (by rw [toDigitsBE_length, toDigitsBE_length])
          (toDigitsBE_mono h (by simpa using hb)) r1 r2

/-! ### Row model (`store/db.rs`, `store/utxo.rs`) -/

/-- `DBRow { key, value }` from `store/db.rs`. -/
structure DBRow where
  key : Bytes
  value : Bytes
deriving DecidableEq

/-- `FundingInfo { txid, vout: u16, value: u64 }` from `store/utxo.rs`. -/
structure FundingInfo where
  txid : FullHash
  vout : Nat
  value : Nat
deriving DecidableEq

/-- `SpendingInfo { txid, vin: u16, prev_txid, prev_vout: u16, value: u64 }`
from `store/utxo.rs`. -/
structure SpendingInfo where
  txid : FullHash
  vin : Nat
  prev_txid : FullHash
  prev_vout : Nat
  value : Nat
deriving DecidableEq

/-- `TxHistoryInfo` (bitcoin variants; the liquid-only variants are behind a
disabled cargo feature). -/
inductive TxHistoryInfo where
  | Funding (info : FundingInfo)
  | Spending (info : SpendingInfo)
deriving DecidableEq

/-- `TxHistoryKey { code: u8, hash: FullHash, confirmed_height: u32, txinfo }`
from `store/utxo.rs`. -/
structure TxHistoryKey where
  code : Nat
  hash : FullHash
  confirmed_height : Nat
  txinfo : TxHistoryInfo
deriving DecidableEq

/-- `bincode::options().with_big_endian()` encoding of `TxHistoryInfo`
(varint int encoding, the bincode-1.3 `Options` default): the `u32` variant
tag (`Funding = 0`, `Spending = 1`) varint-encodes to a single byte, the
`[u8; 32]` txids are 32 raw bytes, and the `u16`/`u64` fields are big-endian
varints. -/
def serTxHistoryInfoBE : TxHistoryInfo → Bytes
  | .Funding f => varintBE 0 ++ f.txid ++ varintBE f.vout ++ varintBE f.value
  | .Spending s =>
      varintBE 1 ++ s.txid ++ varintBE s.vin ++ s.prev_txid
        ++ varintBE s.prev_vout ++ varintBE s.value

/-- `bincode::options().with_big_endian()` encoding of a whole
`TxHistoryKey`, as produced by `TxHistoryRow::into_row`: the `u8` code is a
single byte, the hash 32 raw bytes, and the `u32` confirmed_height a
big-endian varint (1, 3 or 5 bytes). -/
def serTxHistoryKeyBE (k : TxHistoryKey) : Bytes :=
  k.code :: k.hash ++ varintBE k.confirmed_height ++ serTxHistoryInfoBE k.txinfo

/-- `TxHistoryRow` wraps a `TxHistoryKey`. -/
structure TxHistoryRow where
  key : TxHistoryKey
deriving DecidableEq

/-- `TxHistoryRow::into_row`: big-endian serialized key, **empty** value
(`value: vec![]` in `store/utxo.rs`). -/
def TxHistoryRow.into_row (r : TxHistoryRow) : DBRow :=
  { key := serTxHistoryKeyBE r.key, value := [] }

/-! ### Claim C4: big-endian `TxHistoryKey` serialization vs. height order -/

/-- A concrete `Spending` history key at height 5 (zero hashes). -/
def c4KeyA : TxHistoryKey :=
  { code := 72, hash := List.replicate 32 0, confirmed_height := 5,
    txinfo := .Spending
      { txid := List.replicate 32 0, vin := 0,
        prev_txid := List.replicate 32 0, prev_vout := 0, value := 0 } }

/-- A concrete `Funding` history key at the same height 5 (zero hashes). -/
def c4KeyB : TxHistoryKey :=
  { code := 72, hash := List.replicate 32 0, confirmed_height := 5,
    txinfo := .Funding
      { txid := List.replicate 32 0, vout := 0, value := 0 } }

/-- C4 counterexample: two history rows with the same code, the same script
hash and *equal* heights (so `height₁ ≤ height₂`) whose serialized keys are
NOT in `≤` lexicographic order: right after the (equal) varint-encoded
heights, the `Spending` variant tag byte (1) sorts after the `Funding` tag
byte (0), so the claimed "key₁ ≤ key₂ whenever height₁ ≤ height₂" fails at
equal heights. -/
theorem C4_counterexample :
    c4KeyA.code = c4KeyB.code ∧ c4KeyA.hash = c4KeyB.hash ∧
    c4KeyA.confirmed_height ≤ c4KeyB.confirmed_height ∧
    bytesLe (serTxHistoryKeyBE c4KeyA) (serTxHistoryKeyBE c4KeyB) = false := by
  refine ⟨rfl, rfl, le_refl _, ?_⟩
  decide

/-- C4 (amended): serialization of `TxHistoryKey` is monotone in the height:
with the same code and script hash, *strictly* smaller `confirmed_height`
gives a lexicographically strictly smaller serialized key — the big-endian
varint height encoding (single byte `≤ 250`, else discriminator `251`/`252`
followed by the big-endian integer) is itself strictly monotone, heights
being in `u32` range; consequently equal-prefix scans see non-decreasing
heights — if key₁ sorts strictly below key₂ then `height₁ ≤ height₂`. -/
theorem C4_history_key_monotone (k1 k2 : TxHistoryKey)
    (hcode : k1.code = k2.code) (hhash : k1.hash = k2.hash)
    (hb1 : k1.confirmed_height < 2 ^ 32) (hb2 : k2.confirmed_height < 2 ^ 32) :
    (k1.confirmed_height < k2.confirmed_height →
      bytesLt (serTxHistoryKeyBE k1) (serTxHistoryKeyBE k2) = true) ∧
    (bytesLt (serTxHistoryKeyBE k1) (serTxHistoryKeyBE k2) = true →
      k1.confirmed_height ≤ k2.confirmed_height) := by
  have hmain : ∀ (ka kb : TxHistoryKey), ka.code = kb.code → ka.hash = kb.hash →
      kb.confirmed_height < 2 ^ 32 →
      ka.confirmed_height < kb.confirmed_height →
      bytesLt (serTxHistoryKeyBE ka) (serTxHistoryKeyBE kb) = true := by
    intro ka kb hc hh hbb hlt
    unfold serTxHistoryKeyBE
    rw [hc, hh]
    have : (kb.code :: kb.hash) ++ (varintBE ka.confirmed_height
        ++ serTxHistoryInfoBE ka.txinfo) =
        kb.code :: kb.hash ++ varintBE ka.confirmed_height
          ++ serTxHistoryInfoBE ka.txinfo := by simp
    rw [← this]
    have : (kb.code :: kb.hash) ++ (varintBE kb.confirmed_height
        ++ serTxHistoryInfoBE kb.txinfo) =
        kb.code :: kb.hash ++ varintBE kb.confirmed_height
          ++ serTxHistoryInfoBE kb.txinfo := by simp
    rw [← this, bytesLt_append_same]
    exact varintBE_append_mono hlt (lt_trans hbb (by norm_num)) _ _
  constructor
  · exact hmain k1 k2 hcode hhash hb2
  · intro hlt
    by_contra hcon
    have h21 : k2.confirmed_height < k1.confirmed_height := by omega
    have := hmain k2 k1 hcode.symm hhash.symm hb1 h21
    rw [bytesLt_asymm this] at hlt
    exact Bool.false_ne_true hlt

/-- C4 witness: the amended monotonicity applied at concrete keys with
heights 3 < 7. -/
theorem C4_witness :
    bytesLt
      (serTxHistoryKeyBE { c4KeyB with confirmed_height := 3 })
      (serTxHistoryKeyBE { c4KeyB with confirmed_height := 7 }) = true :=
  (C4_history_key_monotone
    { c4KeyB with confirmed_height := 3 } { c4KeyB with confirmed_height := 7 }
    rfl rfl (by decide) (by decide)).1 (by decide)

/-! ### Bitcoin wire types (external `bitcoin` crate, treated as opaque
byte-exact encodings; hashes are carried as data since hashing lives in
external crates) -/

/-- `Script`: a scriptPubKey, opaque bytes. -/
structure Script where
  bytes : Bytes
deriving DecidableEq

/-- `OutPoint { txid, vout: u32 }`. -/
structure OutPoint where
  txid : FullHash
  vout : Nat
deriving DecidableEq

/-- `TxOut { script_pubkey, value: u64 }` (bitcoin mode). -/
structure TxOut where
  script_pubkey : Script
  value : Nat
deriving DecidableEq

/-- `TxIn`; only the field the indexer reads. -/
structure TxIn where
  previous_output : OutPoint
deriving DecidableEq

/-- `Transaction`; `txid` is the transaction's double-SHA256 id, carried as
opaque data (computed by the external crate in the source). -/
structure Transaction where
  txid : FullHash
  input : List TxIn
  output : List TxOut
deriving DecidableEq

/-- `BlockHeader`, opaque: its consensus serialization plus the two hash
views the indexer reads (its own hash, and `prev_blockhash`). -/
structure BlockHeaderM where
  prev_blockhash : FullHash
  block_hash : FullHash
  bytes : Bytes
deriving DecidableEq

/-- `HeaderEntry { height, hash, header }` from `util/block.rs`. -/
structure HeaderEntry where
  height : Nat
  hash : FullHash
  header : BlockHeaderM
deriving DecidableEq

/-- `Block`: header plus transactions; `weight` is the block weight
(computed by the external crate), carried as data for the `M` row. -/
structure Block where
  header : BlockHeaderM
  txdata : List Transaction
  size : Nat
  weight : Nat
deriving DecidableEq

/-- `BlockEntry { block, entry, size }` from `indexer/fetch.rs`. -/
structure BlockEntry where
  block : Block
  entry : HeaderEntry
  size : Nat
deriving DecidableEq

/-- `OutPoint::null()`: all-zero txid and `u32::MAX` vout. -/
def nullOutPoint : OutPoint := { txid := List.replicate 32 0, vout := 4294967295 }

/-- External functions used by the indexer, abstracted: SHA-256 (`crypto`
crate), `Script::is_provably_unspendable`, `ScriptToAddr::to_address_str`
and the consensus serializers/deserializers (`bitcoin` crate). -/
structure Ext where
  sha256 : Bytes → FullHash
  provably_unspendable : Script → Bool
  to_address_str : Script → Option Bytes
  serialize_tx : Transaction → Bytes
  serialize_txout : TxOut → Bytes
  deserialize_txout : Bytes → Option TxOut
  serialize_header : BlockHeaderM → Bytes

/-- `compute_script_hash` from `store/mod.rs`: SHA-256 of the script bytes. -/
def compute_script_hash (ext : Ext) (script : Script) : FullHash :=
  ext.sha256 script.bytes

/-- `is_spendable` from `util/transaction.rs` (bitcoin mode). -/
def is_spendable (ext : Ext) (txout : TxOut) : Bool :=
  ! ext.provably_unspendable txout.script_pubkey

/-- `has_prevout` from `util/transaction.rs` (bitcoin mode):
`!txin.previous_output.is_null()`. -/
def has_prevout (txin : TxIn) : Bool :=
  ! (txin.previous_output == nullOutPoint)

/-- `IndexerConfig` (bitcoin mode; `network` is irrelevant to row layout and
omitted, `to_address_str` already closes over it). -/
structure IndexerConfig where
  light_mode : Bool
  address_search : Bool
  index_unspendables : Bool
deriving DecidableEq

/-! ### Row constructors (`store/utxo.rs`), as serialized `DBRow`s.
bincode default options serialize `u8` as one byte, `[u8; 32]` as its raw
32 bytes and `u16` little-endian, so each key is its code byte followed by
the fields. -/

/-- `TxConfRow::new(...).into_row()`: key `C{txid}{blockhash}`, empty value. -/
def TxConfRow.row (tx : Transaction) (blockhash : FullHash) : DBRow :=
  { key := 67 :: tx.txid ++ blockhash, value := [] }

/-- `TxRow::new(...).into_row()`: key `T{txid}`, value the consensus-serialized
transaction. -/
def TxRow.row (ext : Ext) (tx : Transaction) : DBRow :=
  { key := 84 :: tx.txid, value := ext.serialize_tx tx }

/-- `TxOutRow::new(...).into_row()`: key `O{txid}{vout:u16 LE}`, value the
consensus-serialized output. -/
def TxOutRow.row (ext : Ext) (txid : FullHash) (vout : Nat) (txout : TxOut) : DBRow :=
  { key := 79 :: txid ++ ser_u16_le vout, value := ext.serialize_txout txout }

/-- `TxOutRow::key(outpoint)`: the `O` lookup key for an outpoint. -/
def TxOutRow.lookup_key (o : OutPoint) : Bytes :=
  79 :: o.txid ++ ser_u16_le o.vout

/-- `BlockRow::new_header(...).into_row()`: key `B{blockhash}`, value the
serialized header. -/
def BlockRow.header_row (b : BlockEntry) : DBRow :=
  { key := 66 :: b.entry.hash, value := b.block.header.bytes }

/-- `BlockRow::new_txids(...).into_row()`: key `X{blockhash}`, value the
bincode-serialized txid list (u64 LE length, then raw txids). -/
def BlockRow.txids_row (blockhash : FullHash) (txids : List FullHash) : DBRow :=
  { key := 88 :: blockhash, value := ser_u64_le txids.length ++ txids.flatten }

/-- `BlockRow::new_meta(...).into_row()`: key `M{blockhash}`.
Value modelled from the spec: `BlockMeta { tx_count, size, weight }`
(`util::block::BlockMeta` is not present under `src/`). -/
def BlockRow.meta_row (b : BlockEntry) : DBRow :=
  { key := 77 :: b.entry.hash,
    value := ser_u32_le b.block.txdata.length ++ ser_u32_le b.size
      ++ ser_u32_le b.block.weight }

/-- `BlockRow::new_done(...).into_row()`: key `D{blockhash}`, empty value. -/
def BlockRow.done_row (blockhash : FullHash) : DBRow :=
  { key := 68 :: blockhash, value := [] }

/-! ### Add pass (`indexer/mod.rs`) -/

/-- `add_transaction`: a `C` row, a `T` row unless light mode, and an `O` row
for every spendable output (output index cast to `u16` by the encoder). -/
def add_transaction (ext : Ext) (iconfig : IndexerConfig) (tx : Transaction)
    (blockhash : FullHash) : List DBRow :=
  [TxConfRow.row tx blockhash]
    ++ (if iconfig.light_mode then [] else [TxRow.row ext tx])
    ++ (tx.output.enum.filter (fun p => is_spendable ext p.2)).map
        (fun p => TxOutRow.row ext tx.txid p.1 p.2)

/-- The per-block closure inside `add_blocks` (the body of the `par_iter`
map): the per-transaction rows, then `X` and `M` rows unless light mode,
then the `B` row and the `D` done-marker row. -/
def add_block_rows (ext : Ext) (iconfig : IndexerConfig) (b : BlockEntry) :
    List DBRow :=
  (b.block.txdata.map (fun tx => add_transaction ext iconfig tx b.entry.hash)).flatten
    ++ (if iconfig.light_mode then []
        else [BlockRow.txids_row b.entry.hash (b.block.txdata.map (·.txid)),
              BlockRow.meta_row b])
    ++ [BlockRow.header_row b, BlockRow.done_row b.entry.hash]

/-- `add_blocks`: flatten the per-block rows (order preserved by the
parallel map). -/
def add_blocks (ext : Ext) (iconfig : IndexerConfig)
    (block_entries : List BlockEntry) : List DBRow :=
  (block_entries.map (add_block_rows ext iconfig)).flatten

/-- Key prefixes dropped in light mode: `T` (0x54), `X` (0x58), `M` (0x4d). -/
def addRowKept (r : DBRow) : Bool :=
  ! (r.key.head? == some 84 || r.key.head? == some 88 || r.key.head? == some 77)

theorem add_transaction_light_filter (ext : Ext) (c : IndexerConfig)
    (tx : Transaction) (bh : FullHash) :
    (add_transaction ext { c with light_mode := false } tx bh).filter addRowKept
      = add_transaction ext { c with light_mode := true } tx bh := by
  unfold add_transaction
  simp only [List.filter_append]
  have h1 : [TxConfRow.row tx bh].filter addRowKept = [TxConfRow.row tx bh] := by
    simp [TxConfRow.row, addRowKept]
  have h2 : (if ({ c with light_mode := false } : IndexerConfig).light_mode
      then ([] : List DBRow) else [TxRow.row ext tx]).filter addRowKept
      = (if ({ c with light_mode := true } : IndexerConfig).light_mode
        then ([] : List DBRow) else [TxRow.row ext tx]) := by
    simp [TxRow.row, addRowKept]
  have h3 : ((tx.output.enum.filter (fun p => is_spendable ext p.2)).map
        (fun p => TxOutRow.row ext tx.txid p.1 p.2)).filter addRowKept
      = (tx.output.enum.filter (fun p => is_spendable ext p.2)).map
        (fun p => TxOutRow.row ext tx.txid p.1 p.2) := by
    refine List.filter_eq_self.mpr ?_
    intro r hr
    obtain ⟨p, _, rfl⟩ := List.mem_map.1 hr
    simp [TxOutRow.row, addRowKept]
  rw [h1, h2, h3]
  simp

/-- Per-block version of the light-mode filter identity. -/
theorem add_block_rows_light_filter (ext : Ext) (c : IndexerConfig)
    (b : BlockEntry) :
    (add_block_rows ext { c with light_mode := false } b).filter addRowKept
      = add_block_rows ext { c with light_mode := true } b := by
  unfold add_block_rows
  simp only [List.filter_append, List.filter_flatten, List.map_map]
  have ht : List.map
      (List.filter addRowKept ∘ fun tx =>
        add_transaction ext { c with light_mode := false } tx b.entry.hash)
      b.block.txdata
      = List.map
        (fun tx => add_transaction ext { c with light_mode := true } tx b.entry.hash)
        b.block.txdata :=
    List.map_congr_left (fun tx _ => add_transaction_light_filter ext c tx b.entry.hash)
  rw [ht]
  have hx : (if ({ c with light_mode := false } : IndexerConfig).light_mode
      then ([] : List DBRow)
      else [BlockRow.txids_row b.entry.hash (b.block.txdata.map (·.txid)),
            BlockRow.meta_row b]).filter addRowKept = [] := by
    simp [BlockRow.txids_row, BlockRow.meta_row, addRowKept]
  have hbd : [BlockRow.header_row b,
      BlockRow.done_row b.entry.hash].filter addRowKept
      = [BlockRow.header_row b, BlockRow.done_row b.entry.hash] := by
    simp [BlockRow.header_row, BlockRow.done_row, addRowKept]
  rw [hx, hbd]
  simp

/-- C3: light mode emits exactly the full-mode add rows minus those keyed by
`T`, `X`, `M` (same rows, same order); and in either mode, every transaction
contributes its `C` row and an `O` row for each spendable output, and every
block its `B` row and `D` row. -/
theorem C3_light_mode_rows (ext : Ext) (c : IndexerConfig)
    (blocks : List BlockEntry) :
    (add_blocks ext { c with light_mode := true } blocks
      = (add_blocks ext { c with light_mode := false } blocks).filter addRowKept)
    ∧ (∀ b ∈ blocks,
        (∀ tx ∈ b.block.txdata,
          TxConfRow.row tx b.entry.hash ∈ add_blocks ext c blocks
          ∧ ∀ p ∈ tx.output.enum, is_spendable ext p.2 = true →
              TxOutRow.row ext tx.txid p.1 p.2 ∈ add_blocks ext c blocks)
        ∧ BlockRow.header_row b ∈ add_blocks ext c blocks
        ∧ BlockRow.done_row b.entry.hash ∈ add_blocks ext c blocks) := by
  constructor
  · unfold add_blocks
    rw [List.filter_flatten, List.map_map]
    congr 1
    exact (List.map_congr_left
      (fun b _ => add_block_rows_light_filter ext c b)).symm
  · intro b hb
    have hblockrows : ∀ r : DBRow, r ∈ add_block_rows ext c b →
        r ∈ add_blocks ext c blocks := by
      intro r hr
      unfold add_blocks
      exact List.mem_flatten.2 ⟨_, List.mem_map.2 ⟨b, hb, rfl⟩, hr⟩
    refine ⟨?_, ?_, ?_⟩
    · intro tx htx
      have hmemtx : ∀ r : DBRow, r ∈ add_transaction ext c tx b.entry.hash →
          r ∈ add_blocks ext c blocks := by
        intro r hr
        refine hblockrows r ?_
        unfold add_block_rows
        refine List.mem_append.2 (Or.inl (List.mem_append.2 (Or.inl ?_)))
        exact List.mem_flatten.2 ⟨_, List.mem_map.2 ⟨tx, htx, rfl⟩, hr⟩
      constructor
      · exact hmemtx _ (by simp [add_transaction])
      · intro p hp hsp
        refine hmemtx _ ?_
        unfold add_transaction
        refine List.mem_append.2 (Or.inr ?_)
        exact List.mem_map.2 ⟨p, List.mem_filter.2 ⟨hp, hsp⟩, rfl⟩
    · exact hblockrows _ (by simp [add_block_rows])
    · exact hblockrows _ (by simp [add_block_rows])

/-- A trivial concrete instantiation of the external-function bundle, used
by witnesses. -/
def extW : Ext :=
  { sha256 := fun _ => List.replicate 32 0,
    provably_unspendable := fun _ => false,
    to_address_str := fun _ => none,
    serialize_tx := fun _ => [],
    serialize_txout := fun _ => [],
    deserialize_txout := fun _ => none,
    serialize_header := fun _ => [] }

/-- Full-mode config used by witnesses. -/
def cfgW : IndexerConfig :=
  { light_mode := false, address_search := false, index_unspendables := false }

/-- A concrete header used by witnesses. -/
def hdrW : BlockHeaderM :=
  { prev_blockhash := List.replicate 32 0,
    block_hash := List.replicate 32 1, bytes := [] }

/-- A concrete transaction used by witnesses: no inputs, one spendable
output of 50. -/
def txW : Transaction :=
  { txid := List.replicate 32 2, input := [],
    output := [{ script_pubkey := { bytes := [81] }, value := 50 }] }

/-- A concrete one-transaction block entry used by witnesses. -/
def beW : BlockEntry :=
  { block := { header := hdrW, txdata := [txW], size := 1, weight := 4 },
    entry := { height := 0, hash := List.replicate 32 1, header := hdrW },
    size := 1 }

/-- C3 witness: the block-level row memberships at a concrete one-block
input. -/
theorem C3_witness :
    BlockRow.done_row beW.entry.hash ∈ add_blocks extW cfgW [beW] :=
  ((C3_light_mode_rows extW cfgW [beW]).2 beW (by simp)).2.2

/-! ### Index pass (`indexer/mod.rs`, history rows) -/

/-- `TxHistoryRow::new`: code `H` (0x48), SHA-256 of the script, height,
info. -/
def TxHistoryRow.new (ext : Ext) (script : Script) (confirmed_height : Nat)
    (txinfo : TxHistoryInfo) : TxHistoryRow :=
  { key := { code := 72, hash := compute_script_hash ext script,
             confirmed_height := confirmed_height, txinfo := txinfo } }

/-- `TxEdgeRow::new(...).into_row()`: key
`S{funding_txid}{funding_vout:u16}{spending_txid}{spending_vin:u16}`
(bincode default little-endian), empty value. -/
def TxEdgeRow.row (funding_txid : FullHash) (funding_vout : Nat)
    (spending_txid : FullHash) (spending_vin : Nat) : DBRow :=
  { key := 83 :: funding_txid ++ ser_u16_le funding_vout
      ++ spending_txid ++ ser_u16_le spending_vin,
    value := [] }

/-- `addr_search_row`: `a{address}` → empty, when the script has an address
form. -/
def addr_search_row (ext : Ext) (spk : Script) : Option DBRow :=
  (ext.to_address_str spk).map (fun address => { key := 97 :: address, value := [] })

/-- The `previous_txos_map` (a `HashMap` in the source), as an association
list; lookup by outpoint. -/
def lookupPrev (prev : List (OutPoint × TxOut)) (o : OutPoint) : Option TxOut :=
  (prev.find? (fun p => p.1 == o)).map (·.2)

/-- The output loop of `index_transaction`: a `Funding` history row per
spendable output (or every output with `index_unspendables`), each followed
by an optional address-search row; `vout: txo_index as u16` is the
truncating cast, modelled as `% 2^16`. -/
def funding_rows (ext : Ext) (iconfig : IndexerConfig) (tx : Transaction)
    (confirmed_height : Nat) : List DBRow :=
  ((tx.output.enum.filter
      (fun p => is_spendable ext p.2 || iconfig.index_unspendables)).map
    (fun p =>
      (TxHistoryRow.new ext p.2.script_pubkey confirmed_height
        (.Funding { txid := tx.txid, vout := p.1 % 65536,
                    value := p.2.value })).into_row
      :: (if iconfig.address_search then
            (match addr_search_row ext p.2.script_pubkey with
             | some row => [row]
             | none => [])
          else []))).flatten

/-- The input loop of `index_transaction`: for each non-coinbase input, a
`Spending` history row and a spend-edge row; a previous output missing from
the map is a panic (`none`); the `txi_index as u16` / `vout as u16`
truncating casts are modelled as `% 2^16`. -/
def spending_rows (ext : Ext) (txid : FullHash) (confirmed_height : Nat)
    (prev : List (OutPoint × TxOut)) : List (Nat × TxIn) → Option (List DBRow)
  | [] => some []
  | (i, txi) :: rest =>
    if has_prevout txi then
      match lookupPrev prev txi.previous_output with
      | none => none
      | some prev_txo =>
        (spending_rows ext txid confirmed_height prev rest).map (fun rs =>
          (TxHistoryRow.new ext prev_txo.script_pubkey confirmed_height
            (.Spending
              { txid := txid, vin := i % 65536,
                prev_txid := txi.previous_output.txid,
                prev_vout := txi.previous_output.vout % 65536,
                value := prev_txo.value })).into_row
          :: TxEdgeRow.row txi.previous_output.txid
               (txi.previous_output.vout % 65536) txid (i % 65536)
          :: rs)
    else spending_rows ext txid confirmed_height prev rest

/-- `index_transaction`: funding rows for the outputs, then spending and
edge rows for the inputs (`none` models the "missing previous txo" panic). -/
def index_transaction (ext : Ext) (iconfig : IndexerConfig) (tx : Transaction)
    (confirmed_height : Nat) (prev : List (OutPoint × TxOut)) :
    Option (List DBRow) :=
  (spending_rows ext tx.txid confirmed_height prev tx.input.enum).map
    (fun srows => funding_rows ext iconfig tx confirmed_height ++ srows)

/-- C5 counterexample: at a concrete spendable output (`txW` output 0, value
50, height 7) the emitted `Funding` history row has an **empty** value — the
funding amount and the outpoint are serialized inside the varint-encoded key
(after the height and the `Funding` variant tag byte); no row value carries
them. -/
theorem C5_counterexample :
    index_transaction extW cfgW txW 7 []
      = some
        [{ key := serTxHistoryKeyBE
            { code := 72, hash := List.replicate 32 0, confirmed_height := 7,
              txinfo := .Funding
                { txid := List.replicate 32 2, vout := 0, value := 50 } },
           value := [] }] := by
  rfl

/-- C5 (amended): for every output selected by the index pass (spendable, or
any output under `index_unspendables`), the emitted `Funding` row's **key**
is the varint big-endian serialization of `(H, script_hash, height,
Funding-tag, txid, vout as u16, value)` — the funding amount and the
outpoint live in the key — and the row **value** is empty. -/
theorem C5_funding_row (ext : Ext) (iconfig : IndexerConfig)
    (tx : Transaction) (confirmed_height : Nat)
    (prev : List (OutPoint × TxOut)) (rows : List DBRow)
    (hrows : index_transaction ext iconfig tx confirmed_height prev = some rows) :
    ∀ p ∈ tx.output.enum,
      (is_spendable ext p.2 || iconfig.index_unspendables) = true →
      ({ key := serTxHistoryKeyBE
          { code := 72, hash := compute_script_hash ext p.2.script_pubkey,
            confirmed_height := confirmed_height,
            txinfo := .Funding
              { txid := tx.txid, vout := p.1 % 65536, value := p.2.value } },
         value := [] } : DBRow) ∈ rows := by
  intro p hp hcond
  unfold index_transaction at hrows
  obtain ⟨srows, _, hr⟩ := Option.map_eq_some'.1 hrows
  subst hr
  refine List.mem_append.2 (Or.inl ?_)
  unfold funding_rows
  refine List.mem_flatten.2 ⟨_, List.mem_map.2 ⟨p, List.mem_filter.2 ⟨hp, hcond⟩, rfl⟩, ?_⟩
  simp [TxHistoryRow.new, TxHistoryRow.into_row]

/-- C5 witness: the amended statement applied at the concrete input of the
counterexample. -/
theorem C5_witness :
    ({ key := serTxHistoryKeyBE
         { code := 72, hash := compute_script_hash extW { bytes := [81] },
           confirmed_height := 7,
           txinfo := .Funding
             { txid := txW.txid, vout := 0, value := 50 } },
       value := [] } : DBRow)
      ∈ [({ key := serTxHistoryKeyBE
              { code := 72, hash := List.replicate 32 0, confirmed_height := 7,
                txinfo := .Funding
                  { txid := List.replicate 32 2, vout := 0, value := 50 } },
            value := [] } : DBRow)] :=
  C5_funding_row extW cfgW txW 7 [] _ (by rfl)
    (0, { script_pubkey := { bytes := [81] }, value := 50 }) (by decide) (by decide)

/-! ### Store state machine (`store/mod.rs`, `indexer/mod.rs`) -/

/-- `load_blockhashes(db, b"D")` from `store/mod.rs`: prefix-scan the `D`
rows and read back the 32-byte hash following the code byte. -/
def dHashes (db : List DBRow) : List FullHash :=
  (db.filter (fun r => r.key.head? == some 68)).map (fun r => r.key.drop 1)

/-- `HeaderList` from `util/block.rs`: entries plus tip (the hash→height
map is derivable and omitted). -/
structure HeaderList where
  headers : List HeaderEntry
  tip : FullHash
deriving DecidableEq

/-- `HeaderList::default()`: empty, null tip. -/
def HeaderList.empty : HeaderList :=
  { headers := [], tip := List.replicate 32 0 }

/-- `HeaderList::header_by_blockhash`. -/
def HeaderList.header_by_blockhash (hl : HeaderList) (bh : FullHash) :
    Option HeaderEntry :=
  hl.headers.find? (fun e => e.hash == bh)

/-- Modelled from the spec: `HeaderList::order` (its implementation is not
under `src/`): the fork height is found by looking up the first new
header's `prev_blockhash` (height 0 for the null hash); the new headers are
numbered consecutively from `fork_height + 1`; an unknown fork point is the
"non-connecting headers" failure (`none`). -/
def HeaderList.order (hl : HeaderList) (raw : List BlockHeaderM) :
    Option (List HeaderEntry) :=
  match raw.head? with
  | none => some []
  | some h0 =>
    (if h0.prev_blockhash == List.replicate 32 0 then some 0
     else (hl.header_by_blockhash h0.prev_blockhash).map (fun e => e.height + 1)).map
      (fun start => raw.enum.map (fun p =>
        { height := start + p.1, hash := p.2.block_hash, header := p.2 }))

/-- Modelled from the spec: `HeaderList::apply` (its implementation is not
under `src/`): truncate above the fork point, append the new entries,
update the tip to the last hash. -/
def HeaderList.apply (hl : HeaderList) (new_headers : List HeaderEntry) :
    HeaderList :=
  match new_headers.head? with
  | none => hl
  | some e0 =>
    let kept := hl.headers.takeWhile (fun e => e.height < e0.height)
    let hs := kept ++ new_headers
    { headers := hs,
      tip := ((hs.getLast?).map (fun e => e.hash)).getD (List.replicate 32 0) }

/-- The `Store` state: the two row databases (as row lists), the two
in-memory blockhash sets (as lists), and the in-memory header list. -/
structure StoreState where
  txstore : List DBRow
  history : List DBRow
  added_blockhashes : List FullHash
  indexed_blockhashes : List FullHash
  indexed_headers : HeaderList
deriving DecidableEq

/-- `Store::open`: `added_blockhashes` are the `D` hashes of txstore,
`indexed_blockhashes` the `D` hashes of history; the header list is
reconstructed from the `t` marker and `B` rows by `HeaderList::new`, whose
implementation is not under `src/` — it is taken here as an arbitrary
parameter. -/
def Store.openState (txdisk historydisk : List DBRow) (hl : HeaderList) :
    StoreState :=
  { txstore := txdisk, history := historydisk,
    added_blockhashes := dHashes txdisk,
    indexed_blockhashes := dHashes historydisk,
    indexed_headers := hl }

/-- `Indexer::add`: write the add-pass rows to txstore, then extend
`added_blockhashes` with the batch's hashes. -/
def Indexer.add (ext : Ext) (iconfig : IndexerConfig) (blocks : List BlockEntry)
    (s : StoreState) : StoreState :=
  { s with
    txstore := s.txstore ++ add_blocks ext iconfig blocks,
    added_blockhashes := s.added_blockhashes ++ blocks.map (fun b => b.entry.hash) }

/-- `get_previous_txos`: all previous outpoints of non-coinbase inputs in
the batch (the source collects them into a `BTreeSet`; order and
duplicates are irrelevant here). -/
def get_previous_txos (blocks : List BlockEntry) : List OutPoint :=
  (blocks.map (fun b =>
    (b.block.txdata.map (fun tx =>
      (tx.input.filter has_prevout).map (fun txin => txin.previous_output))).flatten)).flatten

/-- Sequential `Option`-valued map, as the source's fallible loops: the
first failure (panic) aborts. -/
def mapMO {α β : Type} (f : α → Option β) : List α → Option (List β)
  | [] => some []
  | a :: l => (f a).bind (fun b => (mapMO f l).map (fun bs => b :: bs))

/-- Point lookup in the row-list model of a database. -/
def db_get (db : List DBRow) (key : Bytes) : Option Bytes :=
  (db.find? (fun r => r.key == key)).map (fun r => r.value)

/-- `lookup_txo`: read the `O` row and deserialize it (a failed
deserialization is a panic, `none`). -/
def lookup_txo (ext : Ext) (db : List DBRow) (o : OutPoint) : Option TxOut :=
  (db_get db (TxOutRow.lookup_key o)).bind ext.deserialize_txout

/-- `lookup_txos` with `allow_missing = false`: any missing outpoint is a
panic (`none`). -/
def lookup_txos (ext : Ext) (db : List DBRow) (outpoints : List OutPoint) :
    Option (List (OutPoint × TxOut)) :=
  mapMO (fun o => (lookup_txo ext db o).map (fun t => (o, t))) outpoints

/-- The per-block closure inside `index_blocks`: the per-transaction history
rows followed by the `D` done-marker row. -/
def index_block_rows (ext : Ext) (iconfig : IndexerConfig)
    (prev : List (OutPoint × TxOut)) (b : BlockEntry) : Option (List DBRow) :=
  (mapMO (fun tx => index_transaction ext iconfig tx b.entry.height prev)
      b.block.txdata).map
    (fun l => l.flatten ++ [BlockRow.done_row b.entry.hash])

/-- `index_blocks`: flatten the per-block history rows (order preserved by
the parallel map). -/
def index_blocks (ext : Ext) (iconfig : IndexerConfig)
    (blocks : List BlockEntry) (prev : List (OutPoint × TxOut)) :
    Option (List DBRow) :=
  (mapMO (index_block_rows ext iconfig prev) blocks).map List.flatten

/-- `Indexer::index`: look up all previous outputs in txstore, panic
(`none`) if some block of the batch is not in `added_blockhashes`, then
write the history rows.  `indexed_blockhashes` is not touched. -/
def Indexer.index (ext : Ext) (iconfig : IndexerConfig)
    (blocks : List BlockEntry) (s : StoreState) : Option StoreState :=
  (lookup_txos ext s.txstore (get_previous_txos blocks)).bind (fun prev =>
    if blocks.all (fun b => s.added_blockhashes.contains b.entry.hash) then
      (index_blocks ext iconfig blocks prev).map
        (fun rows => { s with history := s.history ++ rows })
    else none)

/-- States of the Store reachable by the program: open on an empty
database, add and index batches, and re-open of the persisted databases. -/
inductive Reachable (ext : Ext) (iconfig : IndexerConfig) : StoreState → Prop
  | open_empty (hl : HeaderList) :
      Reachable ext iconfig (Store.openState [] [] hl)
  | add (s : StoreState) (blocks : List BlockEntry) :
      Reachable ext iconfig s →
      Reachable ext iconfig (Indexer.add ext iconfig blocks s)
  | index (s s' : StoreState) (blocks : List BlockEntry) :
      Reachable ext iconfig s →
      Indexer.index ext iconfig blocks s = some s' →
      Reachable ext iconfig s'
  | reopen (s : StoreState) (hl : HeaderList) :
      Reachable ext iconfig s →
      Reachable ext iconfig (Store.openState s.txstore s.history hl)

theorem dHashes_append (a b : List DBRow) :
    dHashes (a ++ b) = dHashes a ++ dHashes b := by
  simp [dHashes, List.filter_append]

theorem dHashes_flatten (L : List (List DBRow)) :
    dHashes L.flatten = (L.map dHashes).flatten := by
  induction L with
  | nil => rfl
  | cons l L ih => simp only [List.flatten_cons, dHashes_append, List.map_cons, ih]

theorem dHashes_eq_nil_of_no_d {l : List DBRow}
    (h : ∀ r ∈ l, (r.key.head? == some 68) = false) : dHashes l = [] := by
  unfold dHashes
  rw [List.filter_eq_nil_iff.2 ?_]
  · rfl
  · intro r hr
    simp [h r hr]

theorem add_transaction_no_d (ext : Ext) (iconfig : IndexerConfig)
    (tx : Transaction) (bh : FullHash) :
    ∀ r ∈ add_transaction ext iconfig tx bh, (r.key.head? == some 68) = false := by
  intro r hr
  unfold add_transaction at hr
  rcases List.mem_append.1 hr with hr | hr
  · rcases List.mem_append.1 hr with hr | hr
    · rw [List.mem_singleton.1 hr]; rfl
    · by_cases hl : iconfig.light_mode = true
      · rw [if_pos hl] at hr; simp at hr
      · rw [if_neg hl] at hr
        rw [List.mem_singleton.1 hr]; rfl
  · obtain ⟨p, _, rfl⟩ := List.mem_map.1 hr
    rfl

theorem dHashes_add_block_rows (ext : Ext) (iconfig : IndexerConfig)
    (b : BlockEntry) :
    dHashes (add_block_rows ext iconfig b) = [b.entry.hash] := by
  unfold add_block_rows
  rw [dHashes_append, dHashes_append]
  have h1 : dHashes ((b.block.txdata.map
      (fun tx => add_transaction ext iconfig tx b.entry.hash)).flatten) = [] := by
    refine dHashes_eq_nil_of_no_d ?_
    intro r hr
    obtain ⟨l, hl, hrl⟩ := List.mem_flatten.1 hr
    obtain ⟨tx, _, rfl⟩ := List.mem_map.1 hl
    exact add_transaction_no_d ext iconfig tx b.entry.hash r hrl
  have h2 : dHashes (if iconfig.light_mode then []
      else [BlockRow.txids_row b.entry.hash (b.block.txdata.map (·.txid)),
            BlockRow.meta_row b]) = [] := by
    refine dHashes_eq_nil_of_no_d ?_
    intro r hr
    by_cases hl : iconfig.light_mode = true
    · rw [if_pos hl] at hr; simp at hr
    · rw [if_neg hl] at hr
      rcases List.mem_cons.1 hr with rfl | hr
      · rfl
      · rw [List.mem_singleton.1 hr]; rfl
  have h3 : dHashes [BlockRow.header_row b, BlockRow.done_row b.entry.hash]
      = [b.entry.hash] := by
    simp [dHashes, BlockRow.header_row, BlockRow.done_row]
  rw [h1, h2, h3]
  rfl

theorem dHashes_add_blocks (ext : Ext) (iconfig : IndexerConfig)
    (blocks : List BlockEntry) :
    dHashes (add_blocks ext iconfig blocks)
      = blocks.map (fun b => b.entry.hash) := by
  unfold add_blocks
  rw [dHashes_flatten, List.map_map]
  induction blocks with
  | nil => rfl
  | cons b bs ih =>
    simp only [List.map_cons, List.flatten_cons, Function.comp_apply]
    rw [dHashes_add_block_rows]
    simpa using ih

/-- `mapMO` inversion: each output element comes from some input element. -/
theorem mapMO_mem {α β : Type} (f : α → Option β) :
    ∀ {l : List α} {ys : List β}, mapMO f l = some ys →
      ∀ y ∈ ys, ∃ x ∈ l, f x = some y := by
  intro l
  induction l with
  | nil =>
    intro ys h y hy
    simp [mapMO] at h
    subst h
    simp at hy
  | cons a l ih =>
    intro ys h y hy
    unfold mapMO at h
    obtain ⟨b, hb, h⟩ := Option.bind_eq_some.1 h
    obtain ⟨bs, hbs, h⟩ := Option.map_eq_some'.1 h
    subst h
    rcases List.mem_cons.1 hy with rfl | hy
    · exact ⟨a, List.mem_cons_self a l, hb⟩
    · obtain ⟨x, hx, hfx⟩ := ih hbs y hy
      exact ⟨x, List.mem_cons_of_mem a hx, hfx⟩

theorem spending_rows_no_d (ext : Ext) (txid : FullHash) (h : Nat)
    (prev : List (OutPoint × TxOut)) :
    ∀ {ins : List (Nat × TxIn)} {rs : List DBRow},
      spending_rows ext txid h prev ins = some rs →
      ∀ r ∈ rs, (r.key.head? == some 68) = false := by
  intro ins
  induction ins with
  | nil =>
    intro rs hrs r hr
    simp [spending_rows] at hrs
    subst hrs
    simp at hr
  | cons p rest ih =>
    intro rs hrs r hr
    obtain ⟨i, txi⟩ := p
    unfold spending_rows at hrs
    by_cases hpv : has_prevout txi
    · rw [if_pos hpv] at hrs
      cases hlk : lookupPrev prev txi.previous_output with
      | none => rw [hlk] at hrs; simp at hrs
      | some prev_txo =>
        rw [hlk] at hrs
        obtain ⟨rs0, hrs0, hr0⟩ := Option.map_eq_some'.1 hrs
        subst hr0
        rcases List.mem_cons.1 hr with rfl | hr
        · rfl
        · rcases List.mem_cons.1 hr with rfl | hr
          · rfl
          · exact ih hrs0 r hr
    · rw [if_neg hpv] at hrs
      exact ih hrs r hr

theorem index_transaction_no_d (ext : Ext) (iconfig : IndexerConfig)
    (tx : Transaction) (h : Nat) (prev : List (OutPoint × TxOut))
    {rs : List DBRow} (hrs : index_transaction ext iconfig tx h prev = some rs) :
    ∀ r ∈ rs, (r.key.head? == some 68) = false := by
  intro r hr
  unfold index_transaction at hrs
  obtain ⟨srows, hsp, hmap⟩ := Option.map_eq_some'.1 hrs
  subst hmap
  rcases List.mem_append.1 hr with hr | hr
  · unfold funding_rows at hr
    obtain ⟨l, hl, hrl⟩ := List.mem_flatten.1 hr
    obtain ⟨p, _, rfl⟩ := List.mem_map.1 hl
    rcases List.mem_cons.1 hrl with rfl | hrl
    · rfl
    · by_cases hadr : iconfig.address_search = true
      swap
      · rw [if_neg hadr] at hrl; simp at hrl
      · rw [if_pos hadr] at hrl
        cases har : addr_search_row ext p.2.script_pubkey with
        | none => rw [har] at hrl; simp at hrl
        | some row =>
          rw [har] at hrl
          rw [List.mem_singleton.1 hrl]
          obtain ⟨addr, _, hrow⟩ := Option.map_eq_some'.1 har
          rw [← hrow]
          rfl
  · exact spending_rows_no_d ext tx.txid h prev hsp r hr

theorem index_block_rows_d (ext : Ext) (iconfig : IndexerConfig)
    (prev : List (OutPoint × TxOut)) (b : BlockEntry) {rows : List DBRow}
    (hrows : index_block_rows ext iconfig prev b = some rows) :
    dHashes rows = [b.entry.hash] := by
  unfold index_block_rows at hrows
  obtain ⟨ls, hls, hmap⟩ := Option.map_eq_some'.1 hrows
  subst hmap
  rw [dHashes_append]
  have h1 : dHashes ls.flatten = [] := by
    refine dHashes_eq_nil_of_no_d ?_
    intro r hr
    obtain ⟨l, hl, hrl⟩ := List.mem_flatten.1 hr
    obtain ⟨tx, _, htx⟩ := mapMO_mem _ hls l hl
    exact index_transaction_no_d ext iconfig tx b.entry.height prev htx r hrl
  have h2 : dHashes [BlockRow.done_row b.entry.hash] = [b.entry.hash] := by
    simp [dHashes, BlockRow.done_row]
  rw [h1, h2]
  rfl

theorem index_blocks_d_subset (ext : Ext) (iconfig : IndexerConfig)
    (blocks : List BlockEntry) (prev : List (OutPoint × TxOut))
    {rows : List DBRow} (hrows : index_blocks ext iconfig blocks prev = some rows) :
    ∀ h ∈ dHashes rows, h ∈ blocks.map (fun b => b.entry.hash) := by
  intro h hh
  unfold index_blocks at hrows
  obtain ⟨ls, hls, hmap⟩ := Option.map_eq_some'.1 hrows
  subst hmap
  rw [dHashes_flatten] at hh
  obtain ⟨dl, hdl, hhdl⟩ := List.mem_flatten.1 hh
  obtain ⟨rb, hrb, rfl⟩ := List.mem_map.1 hdl
  obtain ⟨b, hb, hfb⟩ := mapMO_mem _ hls rb hrb
  rw [index_block_rows_d ext iconfig prev b hfb] at hhdl
  rw [List.mem_singleton.1 hhdl]
  exact List.mem_map.2 ⟨b, hb, rfl⟩

/-- The inductive invariant: `indexed ⊆ added`, the history `D` hashes are
all added, and `added` coincides with the txstore `D` hashes. -/
def StoreInv (s : StoreState) : Prop :=
  (∀ h ∈ s.indexed_blockhashes, h ∈ s.added_blockhashes)
  ∧ (∀ h ∈ dHashes s.history, h ∈ s.added_blockhashes)
  ∧ (∀ h : FullHash, h ∈ s.added_blockhashes ↔ h ∈ dHashes s.txstore)

theorem storeInv_of_reachable (ext : Ext) (iconfig : IndexerConfig)
    (s : StoreState) (hreach : Reachable ext iconfig s) : StoreInv s := by
  induction hreach with
  | open_empty hl =>
    refine ⟨?_, ?_, ?_⟩ <;> simp [Store.openState, dHashes]
  | add s blocks _ ih =>
    obtain ⟨h1, h2, h3⟩ := ih
    refine ⟨?_, ?_, ?_⟩
    · intro h hh
      exact List.mem_append.2 (Or.inl (h1 h hh))
    · intro h hh
      exact List.mem_append.2 (Or.inl (h2 h hh))
    · intro h
      simp only [Indexer.add, dHashes_append, dHashes_add_blocks, List.mem_append]
      constructor
      · rintro (hh | hh)
        · exact Or.inl ((h3 h).1 hh)
        · exact Or.inr hh
      · rintro (hh | hh)
        · exact Or.inl ((h3 h).2 hh)
        · exact Or.inr hh
  | index s s' blocks _ hidx ih =>
    obtain ⟨h1, h2, h3⟩ := ih
    unfold Indexer.index at hidx
    obtain ⟨prev, hprev, hidx⟩ := Option.bind_eq_some.1 hidx
    by_cases hall : blocks.all (fun b => s.added_blockhashes.contains b.entry.hash)
    · rw [if_pos hall] at hidx
      obtain ⟨rows, hrows, hs'⟩ := Option.map_eq_some'.1 hidx
      subst hs'
      refine ⟨h1, ?_, h3⟩
      intro h hh
      rw [dHashes_append] at hh
      rcases List.mem_append.1 hh with hh | hh
      · exact h2 h hh
      · obtain ⟨b, hb, rfl⟩ := List.mem_map.1
          (index_blocks_d_subset ext iconfig blocks prev hrows h hh)
        have := List.all_eq_true.1 hall b hb
        simpa using this
    · rw [if_neg hall] at hidx
      simp at hidx
  | reopen s hl _ ih =>
    obtain ⟨h1, h2, h3⟩ := ih
    refine ⟨?_, ?_, ?_⟩
    · intro h hh
      exact (h3 h).1 (h2 h hh)
    · intro h hh
      exact (h3 h).1 (h2 h hh)
    · intro h
      exact Iff.rfl

/-- C2: at every reachable Store state, `added_blockhashes ⊇
`indexed_blockhashes`; and indexing a batch containing a block missing from
`added_blockhashes` panics (`none`) instead of extending anything. -/
theorem C2_superset_invariant (ext : Ext) (iconfig : IndexerConfig)
    (s : StoreState) (hreach : Reachable ext iconfig s) :
    (∀ h ∈ s.indexed_blockhashes, h ∈ s.added_blockhashes)
    ∧ (∀ (blocks : List BlockEntry) (b : BlockEntry), b ∈ blocks →
        b.entry.hash ∉ s.added_blockhashes →
        Indexer.index ext iconfig blocks s = none) := by
  refine ⟨(storeInv_of_reachable ext iconfig s hreach).1, ?_⟩
  intro blocks b hb hnotadded
  unfold Indexer.index
  cases hlk : lookup_txos ext s.txstore (get_previous_txos blocks) with
  | none => rfl
  | some prev =>
    simp only [Option.some_bind]
    rw [if_neg ?_]
    intro hall
    have := List.all_eq_true.1 hall b hb
    exact hnotadded (by simpa using this)

/-- C2 witness: the invariant at the freshly opened empty store, and the
panic of `index` on a batch whose block was never added. -/
theorem C2_witness :
    (∀ h ∈ (Store.openState [] [] HeaderList.empty).indexed_blockhashes,
      h ∈ (Store.openState [] [] HeaderList.empty).added_blockhashes)
    ∧ Indexer.index extW cfgW [beW] (Store.openState [] [] HeaderList.empty)
        = none := by
  refine ⟨(C2_superset_invariant extW cfgW _ (Reachable.open_empty _)).1, ?_⟩
  exact (C2_superset_invariant extW cfgW _ (Reachable.open_empty _)).2
    [beW] beW (List.mem_singleton.2 rfl) (by decide)

/-! ### `Indexer::update` (C1).  The source body of `update` performs the
two passes and then ends in `todo!()`; its tail (tip write, header apply,
return value) is modelled from the spec. -/

/-- The daemon as seen by one `update` run: `getbestblockhash`, the raw
header walk result (`daemon.get_new_headers`, modelled in detail for C8),
and block fetch by hash (either fetcher back-end). -/
structure DaemonOracle where
  bestblockhash : Option FullHash
  new_headers : Option (List BlockHeaderM)
  block_for : FullHash → Option Block

/-- The fetcher pipeline: fetch every listed header's block in order (a
failed fetch is the fetcher's panic). -/
def fetchBlocks (oracle : DaemonOracle) (headers : List HeaderEntry) :
    Option (List BlockEntry) :=
  mapMO (fun he => (oracle.block_for he.hash).map
    (fun blk => { block := blk, entry := he, size := blk.size })) headers

/-- `Indexer::update`: get the tip from a fresh connection, order the new
headers, add-pass the batches not yet added, index-pass the batches not yet
indexed; then — modelled from the spec (§4.5 step 8), the source tail being
`todo!()` — write the tip marker `t` to txstore, apply the new headers to
the in-memory header list, and return the tip hash. -/
def Indexer.update (ext : Ext) (iconfig : IndexerConfig)
    (oracle : DaemonOracle) (s : StoreState) :
    Option (FullHash × StoreState) :=
  (oracle.bestblockhash).bind (fun tip =>
  (oracle.new_headers).bind (fun raw =>
  (s.indexed_headers.order raw).bind (fun new_headers =>
  (fetchBlocks oracle (new_headers.filter
      (fun he => ! s.added_blockhashes.contains he.hash))).bind (fun ablocks =>
  let s1 := Indexer.add ext iconfig ablocks s
  (fetchBlocks oracle (new_headers.filter
      (fun he => ! s1.indexed_blockhashes.contains he.hash))).bind (fun iblocks =>
  (Indexer.index ext iconfig iblocks s1).bind (fun s2 =>
  some (tip, { s2 with
    txstore := s2.txstore ++ [{ key := [116], value := tip }],
    indexed_headers := s2.indexed_headers.apply new_headers })))))))

theorem Indexer.index_headers (ext : Ext) (iconfig : IndexerConfig)
    (blocks : List BlockEntry) (s s' : StoreState)
    (h : Indexer.index ext iconfig blocks s = some s') :
    s'.indexed_headers = s.indexed_headers := by
  unfold Indexer.index at h
  obtain ⟨prev, _, h⟩ := Option.bind_eq_some.1 h
  by_cases hall : blocks.all (fun b => s.added_blockhashes.contains b.entry.hash)
  · rw [if_pos hall] at h
    obtain ⟨rows, _, hs2⟩ := Option.map_eq_some'.1 h
    subst hs2
    rfl
  · rw [if_neg hall] at h
    simp at h

/-- C1: on every successful `update`, the returned hash is the daemon's best
block hash, the tip marker row `t` → tip is in txstore, and the in-memory
header list is `apply`-ed with the ordered new headers. -/
theorem C1_update_tip (ext : Ext) (iconfig : IndexerConfig)
    (oracle : DaemonOracle) (s : StoreState) (tip : FullHash) (s' : StoreState)
    (h : Indexer.update ext iconfig oracle s = some (tip, s')) :
    oracle.bestblockhash = some tip
    ∧ ({ key := [116], value := tip } : DBRow) ∈ s'.txstore
    ∧ ∃ raw new_headers, oracle.new_headers = some raw
        ∧ s.indexed_headers.order raw = some new_headers
        ∧ s'.indexed_headers = s.indexed_headers.apply new_headers := by
  unfold Indexer.update at h
  obtain ⟨tip0, htip, h⟩ := Option.bind_eq_some.1 h
  obtain ⟨raw, hraw, h⟩ := Option.bind_eq_some.1 h
  obtain ⟨new_headers, horder, h⟩ := Option.bind_eq_some.1 h
  obtain ⟨ablocks, hab, h⟩ := Option.bind_eq_some.1 h
  obtain ⟨iblocks, hib, h⟩ := Option.bind_eq_some.1 h
  obtain ⟨s2, hs2, h⟩ := Option.bind_eq_some.1 h
  simp only [Option.some_inj, Prod.mk.injEq] at h
  obtain ⟨rfl, hs3⟩ := h
  subst hs3
  refine ⟨htip, ?_, raw, new_headers, hraw, horder, ?_⟩
  · exact List.mem_append.2 (Or.inr (List.mem_singleton.2 rfl))
  · show s2.indexed_headers.apply new_headers
      = s.indexed_headers.apply new_headers
    rw [Indexer.index_headers ext iconfig iblocks _ s2 hs2]
    rfl

/-- Concrete empty starting state used by the C1 witness. -/
def s0W : StoreState := Store.openState [] [] HeaderList.empty

/-- Concrete daemon oracle used by the C1 witness: tip `[9]`, no new
headers, no blocks. -/
def oracleW : DaemonOracle :=
  { bestblockhash := some [9], new_headers := some [], block_for := fun _ => none }

/-- The state after the witness run of `update`. -/
def s1W : StoreState :=
  { txstore := [{ key := [116], value := [9] }], history := [],
    added_blockhashes := [], indexed_blockhashes := [],
    indexed_headers := HeaderList.empty }

/-- C1 witness: a concrete successful `update` run, with the tip marker in
txstore afterwards. -/
theorem C1_witness :
    ({ key := [116], value := [9] } : DBRow) ∈ s1W.txstore :=
  (C1_update_tip extW cfgW oracleW s0W [9] s1W (by rfl)).2.1

/-! ### Daemon client (`daemon/mod.rs`, `daemon/counter.rs`) -/

/-- A JSON value (`serde_json::Value`). -/
inductive Json where
  | null
  | bool (b : Bool)
  | num (n : Int)
  | str (s : String)
  | arr (elems : List Json)
  | obj (fields : List (String × Json))

/-- `Value::is_null`. -/
def Json.isNull : Json → Bool
  | .null => true
  | _ => false

/-- serde's `Value == u64`: true iff the value is that number
(used for `id != expected_id`). -/
def Json.eqNum : Json → Int → Bool
  | .num m, n => m == n
  | _, _ => false

/-- Object field access (`reply_obj.get(...)`). -/
def jsonField : Json → String → Option Json
  | .obj fs, k => fs.lookup k
  | _, _ => none

/-- `ErrorKind` of the error-chain (`Connection`, plain message, interrupt). -/
inductive ErrorKind where
  | Connection (msg : String)
  | Msg (msg : String)
  | Interrupt (signum : Int)
deriving DecidableEq

/-- `parse_error_code`: `err.as_object()?.get("code")?.as_i64()`. -/
def parse_error_code (err : Json) : Option Int :=
  match err with
  | .obj fs =>
    match fs.lookup "code" with
    | some (.num c) => some c
    | _ => none
  | _ => none

/-- The id/result tail of `parse_jsonrpc_reply` (after the error check). -/
def parse_reply_id (fields : List (String × Json)) (method : String)
    (expected_id : Int) : Except ErrorKind Json :=
  match fields.lookup "id" with
  | none => .error (.Msg "no id in reply")
  | some id =>
    if ! id.eqNum expected_id then
      .error (.Msg ("wrong " ++ method ++ " response id"))
    else
      match fields.lookup "result" with
      | some result => .ok result
      | none => .error (.Msg "no result in reply")

/-- `parse_jsonrpc_reply`: a non-null `error` member with code −28 is a
`Connection` error (retry by reconnection), any other decodable code is a
fatal RPC error; then the id is checked and the result extracted. -/
def parse_jsonrpc_reply (reply : Json) (method : String) (expected_id : Int) :
    Except ErrorKind Json :=
  match reply with
  | .obj fields =>
    match fields.lookup "error" with
    | some err =>
      if ! err.isNull then
        match parse_error_code err with
        | some code =>
          if code == -28 then .error (.Connection (toString code))
          else .error (.Msg (method ++ " RPC error"))
        | none => parse_reply_id fields method expected_id
      else parse_reply_id fields method expected_id
    | none => parse_reply_id fields method expected_id
  | _ => .error (.Msg "non-object reply")

/-- `Counter::next` from `daemon/counter.rs`: increment under the mutex and
return the new value (state passed explicitly). -/
def Counter.next (value : Nat) : Nat × Nat := (value + 1, value + 1)

/-- `retry_request_batch`: loop re-issuing the whole batch; a `Connection`
failure sleeps (interruptible `signal.wait`, modelled by the `wait` oracle),
reconnects and retries; any other outcome is returned.  `attempt k` is the
outcome of the k-th `handle_request_batch(method, params)` call; `fuel`
bounds the unrolling of the source's unbounded `loop`. -/
def retry_request_batch (attempt : Nat → Except ErrorKind (List Json))
    (wait : Nat → Except ErrorKind Unit) :
    Nat → Nat → Option (Except ErrorKind (List Json))
  | 0, _ => none
  | fuel + 1, k =>
    match attempt k with
    | .error (.Connection _) =>
      match wait k with
      | .error e => some (.error e)
      | .ok _ => retry_request_batch attempt wait fuel (k + 1)
    | r => some r

theorem retry_first_non_connection
    (attempt : Nat → Except ErrorKind (List Json))
    (wait : Nat → Except ErrorKind Unit) (k0 : Nat)
    (r : Except ErrorKind (List Json))
    (hk0 : attempt k0 = r) (hr : ∀ m, r ≠ .error (.Connection m))
    (hconn : ∀ j < k0, ∃ m, attempt j = .error (.Connection m))
    (hwait : ∀ j < k0, wait j = .ok ()) :
    ∀ (fuel k : Nat), k ≤ k0 → k0 < k + fuel →
      retry_request_batch attempt wait fuel k = some r := by
  intro fuel
  induction fuel with
  | zero => intro k h1 h2; omega
  | succ fuel ih =>
    intro k h1 h2
    by_cases hk : k = k0
    · subst hk
      unfold retry_request_batch
      rw [hk0]
      rcases r with e | v
      · rcases e with m | m | n
        · exact absurd rfl (hr m)
        · rfl
        · rfl
      · rfl
    · obtain ⟨m, hm⟩ := hconn k (by omega)
      unfold retry_request_batch
      rw [hm, hwait k (by omega)]
      exact ih (k + 1) (by omega) (by omega)

/-- C6: the batch is retried (after the interruptible wait and reconnect)
exactly on `Connection`-kind failures — the first non-`Connection` outcome
is returned as is; a JSON-RPC error object with code −28 parses to a
`Connection` error, and an error with any other code parses to a fatal
non-`Connection` error. -/
theorem C6_retry_connection_only :
    (∀ (attempt : Nat → Except ErrorKind (List Json))
        (wait : Nat → Except ErrorKind Unit) (k0 : Nat)
        (r : Except ErrorKind (List Json)),
      attempt k0 = r → (∀ m, r ≠ .error (.Connection m)) →
      (∀ j < k0, ∃ m, attempt j = .error (.Connection m)) →
      (∀ j < k0, wait j = .ok ()) →
      ∀ fuel, k0 < fuel → retry_request_batch attempt wait fuel 0 = some r)
    ∧ (∀ (fields : List (String × Json)) (err : Json) (method : String)
          (id : Int),
        fields.lookup "error" = some err → err.isNull = false →
        parse_error_code err = some (-28) →
        ∃ m, parse_jsonrpc_reply (.obj fields) method id
          = .error (.Connection m))
    ∧ (∀ (fields : List (String × Json)) (err : Json) (method : String)
          (id : Int) (code : Int),
        fields.lookup "error" = some err → err.isNull = false →
        parse_error_code err = some code → code ≠ -28 →
        ∃ m, parse_jsonrpc_reply (.obj fields) method id = .error (.Msg m)) := by
  refine ⟨?_, ?_, ?_⟩
  · intro attempt wait k0 r hk0 hr hconn hwait fuel hfuel
    exact retry_first_non_connection attempt wait k0 r hk0 hr hconn hwait fuel 0
      (by omega) (by omega)
  · intro fields err method id hlk hnn hc
    refine ⟨toString (-28 : Int), ?_⟩
    simp only [parse_jsonrpc_reply]
    rw [hlk]
    simp [hnn, hc]
  · intro fields err method id code hlk hnn hc hne
    refine ⟨method ++ " RPC error", ?_⟩
    simp only [parse_jsonrpc_reply]
    rw [hlk]
    have hbe : (code == (-28 : Int)) = false := by
      simp [hne]
    simp [hnn, hc, hbe]

/-- The C6 witness attempt oracle: warmup `Connection` failure on the first
try, success afterwards. -/
def attemptW : Nat → Except ErrorKind (List Json) :=
  fun k => if k = 0 then .error (.Connection "warmup") else .ok []

/-- The C6 witness wait oracle: never interrupted. -/
def waitW : Nat → Except ErrorKind Unit := fun _ => .ok ()

/-- C6 witness: one `Connection` failure, one reconnect, then the success is
returned. -/
theorem C6_witness : retry_request_batch attemptW waitW 2 0 = some (.ok []) :=
  (C6_retry_connection_only).1 attemptW waitW 1 (.ok []) rfl
    (fun m h => Except.noConfusion h)
    (fun j hj => ⟨"warmup", by
      have hj0 : j = 0 := by omega
      subst hj0
      rfl⟩)
    (fun j _ => rfl) 2 (by omega)

/-! ### `handle_request_batch` (C7): chunking, ids, reply parsing -/

/-- Fuel-indexed core of itertools `chunks(k)` (fuel ≥ length suffices). -/
def chunkListAux {α : Type} (k : Nat) : Nat → List α → List (List α)
  | _, [] => []
  | 0, _ :: _ => []
  | n + 1, x :: xs => (x :: xs.take (k - 1)) :: chunkListAux k n (xs.drop (k - 1))

/-- itertools `chunks(k)`: split into consecutive chunks of at most `k`. -/
def chunkList {α : Type} (k : Nat) (xs : List α) : List (List α) :=
  chunkListAux k xs.length xs

theorem chunkListAux_flatten {α : Type} (k : Nat) :
    ∀ (n : Nat) (xs : List α), xs.length ≤ n →
      (chunkListAux k n xs).flatten = xs := by
  intro n
  induction n with
  | zero =>
    intro xs h
    have hx : xs = [] := List.eq_nil_of_length_eq_zero (by omega)
    subst hx
    rfl
  | succ n ih =>
    intro xs h
    cases xs with
    | nil => rfl
    | cons x xs =>
      have hlen : xs.length ≤ n := by simpa using h
      simp only [chunkListAux, List.flatten_cons]
      rw [ih (xs.drop (k - 1)) (by simp only [List.length_drop]; omega)]
      rw [List.cons_append, List.take_append_drop]

theorem chunkList_flatten {α : Type} (k : Nat) (xs : List α) :
    (chunkList k xs).flatten = xs :=
  chunkListAux_flatten k xs.length xs (le_refl _)

theorem chunkListAux_map {α β : Type} (k : Nat) (f : α → β) :
    ∀ (n : Nat) (xs : List α), xs.length ≤ n →
      chunkListAux k n (xs.map f) = (chunkListAux k n xs).map (List.map f) := by
  intro n
  induction n with
  | zero =>
    intro xs h
    have hx : xs = [] := List.eq_nil_of_length_eq_zero (by omega)
    subst hx
    rfl
  | succ n ih =>
    intro xs h
    cases xs with
    | nil => rfl
    | cons x xs =>
      have hlen : xs.length ≤ n := by simpa using h
      simp only [List.map_cons, chunkListAux]
      rw [← List.map_take, ← List.map_drop, ih (xs.drop (k - 1))
        (by simp only [List.length_drop]; omega)]

theorem chunkList_map {α β : Type} (k : Nat) (f : α → β) (xs : List α) :
    chunkList k (xs.map f) = (chunkList k xs).map (List.map f) := by
  unfold chunkList
  rw [List.length_map]
  exact chunkListAux_map k f xs.length xs (le_refl _)

theorem chunkListAux_length {α : Type} (k : Nat) (hk : 0 < k) :
    ∀ (n : Nat) (xs : List α), xs.length ≤ n →
      (chunkListAux k n xs).length = (xs.length + k - 1) / k := by
  intro n
  induction n with
  | zero =>
    intro xs h
    have hx : xs = [] := List.eq_nil_of_length_eq_zero (by omega)
    subst hx
    exact (Nat.div_eq_of_lt (by omega)).symm
  | succ n ih =>
    intro xs h
    cases xs with
    | nil =>
      show 0 = (0 + k - 1) / k
      exact (Nat.div_eq_of_lt (by omega)).symm
    | cons x xs =>
      have hlen : xs.length ≤ n := by simpa using h
      simp only [chunkListAux, List.length_cons]
      rw [ih (xs.drop (k - 1)) (by simp only [List.length_drop]; omega)]
      rw [List.length_drop]
      by_cases hm : xs.length ≤ k - 1
      · have e1 : xs.length - (k - 1) + k - 1 = k - 1 := by omega
        have e2 : xs.length + 1 + k - 1 = xs.length + k := by omega
        have d1 : (k - 1) / k = 0 := Nat.div_eq_of_lt (by omega)
        have d2 : (xs.length + k) / k = 1 :=
          Nat.div_eq_of_lt_le (by omega) (by omega)
        rw [e1, e2, d1, d2]
      · have e1 : xs.length - (k - 1) + k - 1 = xs.length := by omega
        have e2 : xs.length + 1 + k - 1 = xs.length + k := by omega
        rw [e1, e2, Nat.add_div_right _ hk]

theorem chunkList_length {α : Type} (k : Nat) (hk : 0 < k) (xs : List α) :
    (chunkList k xs).length = (xs.length + k - 1) / k :=
  chunkListAux_length k hk xs.length xs (le_refl _)

/-- One JSON-RPC request entry:
`json!({"method": method, "params": p, "id": id})`. -/
def mkEntry (method : String) (id : Int) (p : Json) : Json :=
  .obj [("method", .str method), ("params", p), ("id", .num id)]

/-- A well-formed reply entry carrying a result and an id. -/
def mkGoodReply (id : Int) (result : Json) : Json :=
  .obj [("id", .num id), ("result", result)]

/-- The per-chunk reply loop: parse every entry, first failure aborts
(the `?` operator). -/
def parseChunkReplies (method : String) (id : Int) :
    List Json → Except ErrorKind (List Json)
  | [] => .ok []
  | r :: rs =>
    match parse_jsonrpc_reply r method id with
    | .error e => .error e
    | .ok v =>
      match parseChunkReplies method id rs with
      | .error e => .error e
      | .ok vs => .ok (v :: vs)

/-- The chunk loop of `handle_request_batch`: one wire call per chunk
(`call j chunk`), reply must be an array, entries parsed and concatenated
in order. -/
def runChunks (call : Nat → List Json → Except ErrorKind Json)
    (method : String) (id : Int) : Nat → List (List Json) →
    Except ErrorKind (List Json)
  | _, [] => .ok []
  | j, c :: cs =>
    match call j c with
    | .error e => .error e
    | .ok reply =>
      match reply with
      | .arr rs =>
        match parseChunkReplies method id rs with
        | .error e => .error e
        | .ok vs =>
          match runChunks call method id (j + 1) cs with
          | .error e => .error e
          | .ok rest => .ok (vs ++ rest)
      | _ => .error (.Msg "non-array replies")

/-- `handle_request_batch`: draw one fresh id from the counter, build one
entry per parameter set, send chunks of at most 50,000 entries, concatenate
the parsed replies. -/
def handle_request_batch (call : Nat → List Json → Except ErrorKind Json)
    (method : String) (params : List Json) (counter : Nat) :
    Except ErrorKind (List Json) × Nat :=
  let idc := Counter.next counter
  let id : Int := Int.ofNat idc.1
  (runChunks call method id 0 (chunkList 50000 (params.map (mkEntry method id))),
    idc.2)

theorem parse_good_reply (method : String) (id : Int) (r : Json) :
    parse_jsonrpc_reply (mkGoodReply id r) method id = .ok r := by
  have h1 : Json.eqNum (.num id) id = true := by simp [Json.eqNum]
  show parse_reply_id [("id", .num id), ("result", r)] method id = .ok r
  unfold parse_reply_id
  have l2 : List.lookup "id" [("id", Json.num id), ("result", r)]
      = some (Json.num id) := rfl
  have l3 : List.lookup "result" [("id", Json.num id), ("result", r)]
      = some r := rfl
  rw [l2]
  simp [h1, l3]

theorem parse_wrong_id (method : String) (id wrongId : Int) (r : Json)
    (hne : wrongId ≠ id) :
    ∃ m, parse_jsonrpc_reply (mkGoodReply wrongId r) method id
      = .error (.Msg m) := by
  have h1 : Json.eqNum (.num wrongId) id = false := by
    simp [Json.eqNum, hne]
  refine ⟨"wrong " ++ method ++ " response id", ?_⟩
  show parse_reply_id [("id", .num wrongId), ("result", r)] method id = _
  unfold parse_reply_id
  have l2 : List.lookup "id" [("id", Json.num wrongId), ("result", r)]
      = some (Json.num wrongId) := rfl
  rw [l2]
  simp [h1]

theorem parseChunkReplies_good (method : String) (id : Int) (f : Json → Json) :
    ∀ l : List Json,
      parseChunkReplies method id (l.map (fun p => mkGoodReply id (f p)))
        = .ok (l.map f) := by
  intro l
  induction l with
  | nil => rfl
  | cons x l ih =>
    simp only [List.map_cons, parseChunkReplies, parse_good_reply, ih]

theorem runChunks_good (call : Nat → List Json → Except ErrorKind Json)
    (method : String) (id : Int) (f : Json → Json) :
    ∀ (pcks : List (List Json)) (j : Nat),
      (∀ i, call (j + i) ((pcks.getD i []).map (mkEntry method id))
        = .ok (.arr ((pcks.getD i []).map (fun p => mkGoodReply id (f p))))) →
      runChunks call method id j (pcks.map (List.map (mkEntry method id)))
        = .ok ((pcks.map (List.map f)).flatten) := by
  intro pcks
  induction pcks with
  | nil => intro j hcall; rfl
  | cons c cks ih =>
    intro j hcall
    have h0 := hcall 0
    simp only [List.getD_cons_zero, Nat.add_zero] at h0
    simp only [List.map_cons, runChunks, h0, parseChunkReplies_good]
    have hc2 : ∀ i, call (j + 1 + i) ((cks.getD i []).map (mkEntry method id))
        = .ok (.arr ((cks.getD i []).map (fun p => mkGoodReply id (f p)))) := by
      intro i
      have heq : j + 1 + i = j + (i + 1) := by omega
      rw [heq]
      have := hcall (i + 1)
      simpa [List.getD_cons_succ] using this
    rw [ih (j + 1) hc2]
    simp [List.flatten_cons]

theorem parseChunkReplies_error (method : String) (id : Int) :
    ∀ rs : List Json,
      (∃ e ∈ rs, ∃ k0, parse_jsonrpc_reply e method id = .error k0) →
      ∃ k1, parseChunkReplies method id rs = .error k1 := by
  intro rs
  induction rs with
  | nil => rintro ⟨e, he, _⟩; simp at he
  | cons r rs ih =>
    rintro ⟨e, he, k0, hk0⟩
    rcases List.mem_cons.1 he with rfl | he
    · exact ⟨k0, by simp [parseChunkReplies, hk0]⟩
    · cases hpr : parse_jsonrpc_reply r method id with
      | error e1 => exact ⟨e1, by simp [parseChunkReplies, hpr]⟩
      | ok v =>
        obtain ⟨k1, hk1⟩ := ih ⟨e, he, k0, hk0⟩
        exact ⟨k1, by simp [parseChunkReplies, hpr, hk1]⟩

theorem runChunks_error (call : Nat → List Json → Except ErrorKind Json)
    (method : String) (id : Int) :
    ∀ (cks : List (List Json)) (j : Nat) (replies : Nat → List Json),
      (∀ i, call (j + i) (cks.getD i []) = .ok (.arr (replies (j + i)))) →
      (∃ i < cks.length, ∃ e ∈ replies (j + i), ∃ k0,
        parse_jsonrpc_reply e method id = .error k0) →
      ∃ k1, runChunks call method id j cks = .error k1 := by
  intro cks
  induction cks with
  | nil =>
    rintro j replies _ ⟨i, hi, _⟩
    simp at hi
  | cons c cs ih =>
    rintro j replies hcall ⟨i, hi, hbad⟩
    have h0 := hcall 0
    simp only [List.getD_cons_zero, Nat.add_zero] at h0
    cases i with
    | zero =>
      simp only [Nat.add_zero] at hbad
      obtain ⟨k1, hk1⟩ := parseChunkReplies_error method id (replies j) hbad
      exact ⟨k1, by simp [runChunks, h0, hk1]⟩
    | succ i =>
      cases hpc : parseChunkReplies method id (replies j) with
      | error e1 => exact ⟨e1, by simp [runChunks, h0, hpc]⟩
      | ok vs =>
        have hc2 : ∀ i2, call (j + 1 + i2) (cs.getD i2 [])
            = .ok (.arr (replies (j + 1 + i2))) := by
          intro i2
          have heq : j + 1 + i2 = j + (i2 + 1) := by omega
          rw [heq]
          have := hcall (i2 + 1)
          simpa [List.getD_cons_succ] using this
        have hb2 : ∃ i2 < cs.length, ∃ e ∈ replies (j + 1 + i2), ∃ k0,
            parse_jsonrpc_reply e method id = .error k0 := by
          refine ⟨i, by simpa using hi, ?_⟩
          have hj : j + 1 + i = j + (i + 1) := by omega
          rw [hj]
          exact hbad
        obtain ⟨k1, hk1⟩ := ih (j + 1) replies hc2 hb2
        exact ⟨k1, by simp [runChunks, h0, hpc, hk1]⟩

/-- C7: a batched call of N parameter sets sends `⌈N / 50000⌉` wire
requests, every entry carries the single id freshly drawn from the strictly
increasing counter, a reply of well-formed entries is concatenated in
request order, and any reply entry with a differing id fails the whole
call. -/
theorem C7_batching (method : String) (params : List Json) (c : Nat) :
    (∀ id : Int, (chunkList 50000 (params.map (mkEntry method id))).length
      = (params.length + 50000 - 1) / 50000)
    ∧ (∀ (id : Int), ∀ ck ∈ chunkList 50000 (params.map (mkEntry method id)),
        ∀ e ∈ ck, jsonField e "id" = some (.num id))
    ∧ ((Counter.next c).1 = c + 1 ∧ (Counter.next c).2 = c + 1
        ∧ c < (Counter.next c).1)
    ∧ (∀ (f : Json → Json) (call : Nat → List Json → Except ErrorKind Json),
        (∀ j, call j (((chunkList 50000 params).getD j []).map
            (mkEntry method (Int.ofNat (c + 1))))
          = .ok (.arr (((chunkList 50000 params).getD j []).map
            (fun p => mkGoodReply (Int.ofNat (c + 1)) (f p))))) →
        (handle_request_batch call method params c).1 = .ok (params.map f))
    ∧ (∀ (call : Nat → List Json → Except ErrorKind Json)
          (replies : Nat → List Json) (i : Nat) (wrongId : Int) (rv : Json),
        (∀ j, call j (((chunkList 50000 params).getD j []).map
            (mkEntry method (Int.ofNat (c + 1)))) = .ok (.arr (replies j))) →
        i < (chunkList 50000 params).length →
        mkGoodReply wrongId rv ∈ replies i →
        wrongId ≠ Int.ofNat (c + 1) →
        ∃ k1, (handle_request_batch call method params c).1 = .error k1) := by
  refine ⟨?_, ?_, ⟨rfl, rfl, by show c < c + 1; omega⟩, ?_, ?_⟩
  · intro id
    rw [chunkList_length 50000 (by omega), List.length_map]
  · intro id ck hck e he
    have hmem : e ∈ (chunkList 50000 (params.map (mkEntry method id))).flatten :=
      List.mem_flatten.2 ⟨ck, hck, he⟩
    rw [chunkList_flatten] at hmem
    obtain ⟨p, _, rfl⟩ := List.mem_map.1 hmem
    rfl
  · intro f call hcall
    show runChunks call method (Int.ofNat (c + 1)) 0
        (chunkList 50000 (params.map (mkEntry method (Int.ofNat (c + 1)))))
      = .ok (params.map f)
    rw [chunkList_map]
    rw [runChunks_good call method (Int.ofNat (c + 1)) f (chunkList 50000 params)
      0 (fun i => by simpa using hcall i)]
    rw [← List.map_flatten, chunkList_flatten]
  · intro call replies i wrongId rv hcall hi hbad hne
    show ∃ k1, runChunks call method (Int.ofNat (c + 1)) 0
        (chunkList 50000 (params.map (mkEntry method (Int.ofNat (c + 1)))))
      = .error k1
    rw [chunkList_map]
    obtain ⟨m, hm⟩ := parse_wrong_id method (Int.ofNat (c + 1)) wrongId rv hne
    refine runChunks_error call method (Int.ofNat (c + 1))
      ((chunkList 50000 params).map (List.map (mkEntry method (Int.ofNat (c + 1)))))
      0 replies ?_ ?_
    · intro j
      have hgd : ((chunkList 50000 params).map
          (List.map (mkEntry method (Int.ofNat (c + 1))))).getD j []
          = ((chunkList 50000 params).getD j []).map
            (mkEntry method (Int.ofNat (c + 1))) := by
        rcases Nat.lt_or_ge j (chunkList 50000 params).length with hj | hj
        · rw [List.getD_eq_getElem _ _ (by simpa using hj),
            List.getD_eq_getElem _ _ hj]
          simp
        · rw [List.getD_eq_default _ _ (by simpa using hj),
            List.getD_eq_default _ _ hj]
          rfl
      rw [Nat.zero_add, hgd]
      exact hcall j
    · exact ⟨i, by simpa using hi, mkGoodReply wrongId rv, by simpa using hbad,
        .Msg m, hm⟩

/-- The C7 witness wire oracle: replies to chunk `j` with the matching
well-formed reply array. -/
def callW7 : Nat → List Json → Except ErrorKind Json :=
  fun j _ => .ok (.arr (((chunkList 50000 [Json.null]).getD j []).map
    (fun p => mkGoodReply 1 p)))

/-- C7 witness: one parameter set, one chunk, well-formed reply: the call
returns the matching results. -/
theorem C7_witness :
    (handle_request_batch callW7 "getblock" [Json.null] 0).1
      = .ok [Json.null] :=
  (C7_batching "getblock" [Json.null] 0).2.2.2.1 (fun p => p) callW7
    (fun _ => rfl)

/-! ### `Daemon::get_new_headers` / `get_all_headers` (C8) -/

/-- `BlockHash::default()`: the null hash. -/
def nullHash : FullHash := List.replicate 32 0

/-- A default header (for `getD`). -/
def dummyHeader : BlockHeaderM :=
  { prev_blockhash := [], block_hash := [], bytes := [] }

/-- The daemon RPC surface used by the header sync: `getblockheader` by
hash, the verbose height of a header, and `getblockheaders` for a height
batch (internally batched `getblockhash` + `getblockheader`). -/
structure HeadersOracle where
  getblockheader : FullHash → Option BlockHeaderM
  height_of : FullHash → Option Nat
  headers_for_heights : List Nat → Option (List BlockHeaderM)

/-- The chain-linkage assertion loop of `get_all_headers`: starting from the
null hash, each header's `prev_blockhash` must equal the running hash;
returns the final running hash (`none` models the `assert_eq!` panic). -/
def checkLink : FullHash → List BlockHeaderM → Option FullHash
  | h, [] => some h
  | h, hd :: tl => if hd.prev_blockhash = h then checkLink hd.block_hash tl else none

/-- The chunk loop of `get_all_headers`: fetch each height chunk, assert the
returned count, append in order. -/
def collectHeaders (o : HeadersOracle) : List (List Nat) → Option (List BlockHeaderM)
  | [] => some []
  | c :: cs =>
    match o.headers_for_heights c with
    | none => none
    | some hs =>
      if hs.length = c.length then
        (collectHeaders o cs).map (fun rest => hs ++ rest)
      else none

/-- `Daemon::get_all_headers`: all headers from height 0 to the tip in
chunks of 100,000 heights, with the linkage and tip assertions. -/
def Daemon.get_all_headers (o : HeadersOracle) (tip : FullHash) :
    Option (List BlockHeaderM) :=
  match o.height_of tip with
  | none => none
  | some tip_height =>
    match collectHeaders o (chunkList 100000 (List.range (tip_height + 1))) with
    | none => none
    | some result =>
      match checkLink nullHash result with
      | none => none
      | some final => if final = tip then some result else none

/-- The backward walk of `get_new_headers`: from the tip along
`prev_blockhash` until the null hash or a hash the indexer knows; collects
tip-first.  `fuel` bounds the source's unbounded loop; `none` is an RPC
failure or fuel exhaustion. -/
def walkBack (o : HeadersOracle) (indexed : HeaderList) :
    Nat → FullHash → Option (List BlockHeaderM)
  | 0, blockhash =>
    if blockhash = nullHash then some []
    else if (indexed.header_by_blockhash blockhash).isSome then some []
    else none
  | fuel + 1, blockhash =>
    if blockhash = nullHash then some []
    else if (indexed.header_by_blockhash blockhash).isSome then some []
    else
      match o.getblockheader blockhash with
      | none => none
      | some header =>
        (walkBack o indexed fuel header.prev_blockhash).map
          (fun rest => header :: rest)

/-- `Daemon::get_new_headers`: full download when the indexer has no
headers, otherwise the backward walk, reversed into ascending height
order. -/
def Daemon.get_new_headers (o : HeadersOracle) (fuel : Nat)
    (indexed_headers : HeaderList) (bestblockhash : FullHash) :
    Option (List BlockHeaderM) :=
  if indexed_headers.headers.isEmpty then Daemon.get_all_headers o bestblockhash
  else (walkBack o indexed_headers fuel bestblockhash).map List.reverse

/-- The hash "at position j" of a ground-truth chain: null below the chain,
otherwise the hash of the (j−1)-th header. -/
def hashAt (chain : List BlockHeaderM) : Nat → FullHash
  | 0 => nullHash
  | j + 1 => (chain.getD j dummyHeader).block_hash

/-- The node oracle generated by a ground-truth chain: headers looked up by
hash, heights by position, height batches by indexing. -/
def chainOracle (chain : List BlockHeaderM) : HeadersOracle :=
  { getblockheader := fun h => chain.find? (fun hd => hd.block_hash == h),
    height_of := fun h => chain.findIdx? (fun hd => hd.block_hash == h),
    headers_for_heights := fun hs => mapMO (fun i => chain[i]?) hs }

theorem find?_nodup_getD (chain : List BlockHeaderM)
    (hnodup : (chain.map (fun hd => hd.block_hash)).Nodup) :
    ∀ j, j < chain.length →
      chain.find? (fun hd =>
        hd.block_hash == (chain.getD j dummyHeader).block_hash)
        = some (chain.getD j dummyHeader) := by
  induction chain with
  | nil => intro j hj; simp at hj
  | cons x xs ih =>
    intro j hj
    cases j with
    | zero =>
      rw [List.getD_cons_zero]
      rw [List.find?_cons]
      simp
    | succ j =>
      rw [List.getD_cons_succ]
      have hj2 : j < xs.length := by simpa using hj
      rw [List.map_cons] at hnodup
      obtain ⟨hx, hnd⟩ := List.nodup_cons.1 hnodup
      have hmem : (xs.getD j dummyHeader).block_hash
          ∈ xs.map (fun hd => hd.block_hash) := by
        refine List.mem_map.2 ⟨xs.getD j dummyHeader, ?_, rfl⟩
        rw [List.getD_eq_getElem _ _ hj2]
        exact List.getElem_mem hj2
      have hne : (x.block_hash == (xs.getD j dummyHeader).block_hash) = false := by
        refine beq_eq_false_iff_ne.2 ?_
        intro heq
        exact hx (heq ▸ hmem)
      rw [List.find?_cons, hne]
      exact ih hnd j hj2

theorem checkLink_prev :
    ∀ (l : List BlockHeaderM) (h t : FullHash), checkLink h l = some t →
      ∀ j, j < l.length →
        (l.getD j dummyHeader).prev_blockhash
          = (match j with
             | 0 => h
             | j + 1 => (l.getD j dummyHeader).block_hash) := by
  intro l
  induction l with
  | nil => intro h t _ j hj; simp at hj
  | cons x xs ih =>
    intro h t hchk j hj
    unfold checkLink at hchk
    by_cases hp : x.prev_blockhash = h
    · rw [if_pos hp] at hchk
      cases j with
      | zero => simpa using hp
      | succ j =>
        have hj2 : j < xs.length := by simpa using hj
        have := ih x.block_hash t hchk j hj2
        cases j with
        | zero => simpa using this
        | succ j2 => simpa using this
    · rw [if_neg hp] at hchk
      simp at hchk

theorem checkLink_last :
    ∀ (l : List BlockHeaderM) (h t : FullHash), checkLink h l = some t →
      t = (match l.length with
           | 0 => h
           | j + 1 => (l.getD j dummyHeader).block_hash) := by
  intro l
  induction l with
  | nil =>
    intro h t hchk
    simp [checkLink] at hchk
    simp [hchk]
  | cons x xs ih =>
    intro h t hchk
    unfold checkLink at hchk
    by_cases hp : x.prev_blockhash = h
    · rw [if_pos hp] at hchk
      have h2 := ih x.block_hash t hchk
      show t = ((x :: xs).getD xs.length dummyHeader).block_hash
      cases hxs : xs.length with
      | zero =>
        rw [hxs] at h2
        exact h2
      | succ j =>
        rw [hxs] at h2
        exact h2
    · rw [if_neg hp] at hchk
      simp at hchk

theorem lookupRange (chain : List BlockHeaderM) :
    ∀ hs : List Nat, (∀ i ∈ hs, i < chain.length) →
      mapMO (fun i => chain[i]?) hs
        = some (hs.map (fun i => chain.getD i dummyHeader)) := by
  intro hs
  induction hs with
  | nil => intro _; rfl
  | cons i is ih =>
    intro hb
    have hi : i < chain.length := hb i (List.mem_cons_self i is)
    unfold mapMO
    rw [List.getElem?_eq_getElem hi]
    rw [ih (fun x hx => hb x (List.mem_cons_of_mem i hx))]
    have hg : chain.getD i dummyHeader = chain[i] := List.getD_eq_getElem _ _ hi
    rw [List.map_cons, hg]
    rfl

theorem map_getD_range :
    ∀ (l : List BlockHeaderM),
      (List.range l.length).map (fun i => l.getD i dummyHeader) = l := by
  intro l
  induction l with
  | nil => rfl
  | cons x xs ih =>
    have hl : (x :: xs).length = xs.length + 1 := rfl
    rw [hl, List.range_succ_eq_map, List.map_cons, List.map_map,
      List.getD_cons_zero]
    have hmap : (List.range xs.length).map
        ((fun i => (x :: xs).getD i dummyHeader) ∘ Nat.succ)
        = (List.range xs.length).map (fun i => xs.getD i dummyHeader) :=
      List.map_congr_left (fun i _ => by
        simp [Function.comp, List.getD_cons_succ])
    rw [hmap, ih]

theorem collect_chunks (chain : List BlockHeaderM) :
    ∀ cks : List (List Nat), (∀ c ∈ cks, ∀ i ∈ c, i < chain.length) →
      collectHeaders (chainOracle chain) cks
        = some ((cks.map (fun c =>
            c.map (fun i => chain.getD i dummyHeader))).flatten) := by
  intro cks
  induction cks with
  | nil => intro _; rfl
  | cons c cs ih =>
    intro hb
    unfold collectHeaders
    show (match (chainOracle chain).headers_for_heights c with
      | none => none
      | some hs => if hs.length = c.length then
          (collectHeaders (chainOracle chain) cs).map (fun rest => hs ++ rest)
        else none) = _
    rw [show (chainOracle chain).headers_for_heights c
        = mapMO (fun i => chain[i]?) c from rfl]
    rw [lookupRange chain c (hb c (List.mem_cons_self c cs))]
    rw [ih (fun c2 hc2 => hb c2 (List.mem_cons_of_mem c hc2))]
    simp

theorem get_all_headers_chain (chain : List BlockHeaderM) (tip : FullHash)
    (hne : chain ≠ [])
    (hheight : (chainOracle chain).height_of tip = some (chain.length - 1))
    (hlink : checkLink nullHash chain = some tip) :
    Daemon.get_all_headers (chainOracle chain) tip = some chain := by
  have hmem : ∀ c ∈ chunkList 100000 (List.range chain.length),
      ∀ i ∈ c, i < chain.length := by
    intro c hc i hi
    have hfl : i ∈ (chunkList 100000 (List.range chain.length)).flatten :=
      List.mem_flatten.2 ⟨c, hc, hi⟩
    rw [chunkList_flatten] at hfl
    exact List.mem_range.1 hfl
  have hcoll : collectHeaders (chainOracle chain)
      (chunkList 100000 (List.range chain.length)) = some chain := by
    rw [collect_chunks chain _ hmem, ← List.map_flatten, chunkList_flatten,
      map_getD_range]
  have hlen : chain.length - 1 + 1 = chain.length := by
    have : 0 < chain.length := List.length_pos.2 hne
    omega
  unfold Daemon.get_all_headers
  rw [hheight]
  show (match collectHeaders (chainOracle chain)
      (chunkList 100000 (List.range (chain.length - 1 + 1))) with
    | none => none
    | some result =>
      match checkLink nullHash result with
      | none => none
      | some final => if final = tip then some result else none) = some chain
  rw [hlen, hcoll]
  show (match checkLink nullHash chain with
    | none => none
    | some final => if final = tip then some chain else none) = some chain
  rw [hlink]
  simp

theorem walk_seg (chain : List BlockHeaderM) (indexed : HeaderList) (m : Nat)
    (hnodup : (chain.map (fun hd => hd.block_hash)).Nodup)
    (hnonull : nullHash ∉ chain.map (fun hd => hd.block_hash))
    (hprev : ∀ j, j < chain.length →
      (chain.getD j dummyHeader).prev_blockhash = hashAt chain j)
    (hknown : ∀ h : FullHash, (indexed.header_by_blockhash h).isSome = true ↔
      h ∈ (chain.take m).map (fun hd => hd.block_hash))
    (hm : m ≤ chain.length) :
    ∀ (j fuel : Nat), m ≤ j → j ≤ chain.length → j - m ≤ fuel →
      walkBack (chainOracle chain) indexed fuel (hashAt chain j)
        = some ((List.drop m (chain.take j)).reverse) := by
  intro j
  induction j with
  | zero =>
    intro fuel hmj _ _
    have hm0 : m = 0 := Nat.le_zero.1 hmj
    subst hm0
    cases fuel <;> simp [walkBack, hashAt]
  | succ j ih =>
    intro fuel hmj hjl hfuel
    have hjlen : j < chain.length := by omega
    have hgd : chain.getD j dummyHeader = chain[j] :=
      List.getD_eq_getElem _ _ hjlen
    have hhash : hashAt chain (j + 1) = (chain.getD j dummyHeader).block_hash :=
      rfl
    have hnotnull : ¬ (chain.getD j dummyHeader).block_hash = nullHash := by
      intro heq
      refine hnonull ?_
      rw [← heq]
      refine List.mem_map.2 ⟨chain.getD j dummyHeader, ?_, rfl⟩
      rw [hgd]
      exact List.getElem_mem hjlen
    by_cases hjm : m = j + 1
    · -- the (j+1)-th hash is already indexed: the walk stops, nothing new
      have hmem : (chain.getD j dummyHeader).block_hash
          ∈ (chain.take m).map (fun hd => hd.block_hash) := by
        refine List.mem_map.2 ⟨chain.getD j dummyHeader, ?_, rfl⟩
        rw [hjm, List.take_succ, List.getElem?_eq_getElem hjlen]
        refine List.mem_append.2 (Or.inr ?_)
        rw [hgd]
        simp
      have hkn : (indexed.header_by_blockhash
          ((chain.getD j dummyHeader).block_hash)).isSome = true :=
        (hknown _).2 hmem
      have hrhs : (List.drop m (chain.take (j + 1))).reverse = [] := by
        rw [hjm]
        rw [List.drop_eq_nil_of_le (by simp only [List.length_take]; omega)]
        rfl
      rw [hrhs, hhash]
      cases fuel with
      | zero =>
        unfold walkBack
        rw [if_neg hnotnull, if_pos hkn]
      | succ fuel =>
        unfold walkBack
        rw [if_neg hnotnull, if_pos hkn]
    · -- not yet indexed: one real step
      have hm2 : m ≤ j := by omega
      have hnk : (indexed.header_by_blockhash
          ((chain.getD j dummyHeader).block_hash)).isSome ≠ true := by
        intro hkn
        have hmem := (hknown _).1 hkn
        obtain ⟨hd, hhd, hdeq⟩ := List.mem_map.1 hmem
        obtain ⟨i, hi, hieq⟩ := List.mem_iff_getElem.1 hhd
        have hilen : i < m := by
          have h4 := hi
          simp [List.length_take] at h4
          omega
        have hich : i < chain.length := by omega
        have h3 : (chain.take m)[i] = chain[i] :=
          @List.getElem_take _ chain m i hi
        have hce : chain[i] = hd := by rw [← h3, hieq]
        have heq2 : chain[i].block_hash = chain[j].block_hash := by
          rw [hce, hdeq, hgd]
        have hb1 : i < (chain.map (fun hd => hd.block_hash)).length := by
          rw [List.length_map]; omega
        have hb2 : j < (chain.map (fun hd => hd.block_hash)).length := by
          rw [List.length_map]; omega
        have hmapi : (chain.map (fun hd => hd.block_hash))[i]
            = (chain.map (fun hd => hd.block_hash))[j] := by
          rw [List.getElem_map, List.getElem_map]
          exact heq2
        have hij : i = j :=
          (List.Nodup.getElem_inj_iff hnodup).1 hmapi
        omega
      have hb : (chainOracle chain).getblockheader
          ((chain.getD j dummyHeader).block_hash)
          = some (chain.getD j dummyHeader) :=
        find?_nodup_getD chain hnodup j hjlen
      cases fuel with
      | zero => omega
      | succ fuel =>
        rw [hhash]
        unfold walkBack
        rw [if_neg hnotnull, if_neg hnk, hb]
        show Option.map (fun rest => chain.getD j dummyHeader :: rest)
            (walkBack (chainOracle chain) indexed fuel
              ((chain.getD j dummyHeader).prev_blockhash))
          = some ((List.drop m (chain.take (j + 1))).reverse)
        rw [hprev j hjlen]
        rw [ih fuel hm2 (by omega) (by omega)]
        have htake : chain.take (j + 1) = chain.take j ++ [chain[j]] := by
          rw [List.take_succ, List.getElem?_eq_getElem hjlen]
          rfl
        rw [htake, List.drop_append_of_le_length (by simp only [List.length_take]; omega)]
        rw [List.reverse_append]
        simp [hgd, List.getElem?_eq_getElem hjlen]

/-- C8: against a well-formed node chain, `get_new_headers` with an empty
indexed header list downloads the whole chain (heights 0..tip in chunks of
100,000); with a non-empty indexed list knowing exactly the first `m`
block hashes, the backward walk from the tip stops at the first known hash
(or the null hash when `m = 0`) and returns exactly the remaining headers
in ascending height order. -/
theorem C8_get_new_headers (chain : List BlockHeaderM) (tip : FullHash)
    (m fuel : Nat) (indexed : HeaderList)
    (hlink : checkLink nullHash chain = some tip)
    (hnodup : (chain.map (fun hd => hd.block_hash)).Nodup)
    (hnonull : nullHash ∉ chain.map (fun hd => hd.block_hash))
    (hm : m ≤ chain.length) (hfuel : chain.length ≤ fuel) :
    (chain ≠ [] →
      (chainOracle chain).height_of tip = some (chain.length - 1) →
      Daemon.get_new_headers (chainOracle chain) fuel HeaderList.empty tip
        = some chain)
    ∧ (indexed.headers ≠ [] →
        (∀ h : FullHash, (indexed.header_by_blockhash h).isSome = true ↔
          h ∈ (chain.take m).map (fun hd => hd.block_hash)) →
        Daemon.get_new_headers (chainOracle chain) fuel indexed tip
          = some (chain.drop m)) := by
  have htip : tip = hashAt chain chain.length := by
    have h2 := checkLink_last chain nullHash tip hlink
    cases hcl : chain.length with
    | zero => rw [hcl] at h2; simpa [hashAt] using h2
    | succ j => rw [hcl] at h2; simpa [hashAt] using h2
  constructor
  · intro hne hheight
    unfold Daemon.get_new_headers
    rw [if_pos (by rfl)]
    exact get_all_headers_chain chain tip hne hheight hlink
  · intro hne hknown
    have hprev : ∀ j, j < chain.length →
        (chain.getD j dummyHeader).prev_blockhash = hashAt chain j := by
      intro j hj
      have := checkLink_prev chain nullHash tip hlink j hj
      cases j with
      | zero => simpa [hashAt] using this
      | succ j2 => simpa [hashAt] using this
    have hempty : indexed.headers.isEmpty = false := by
      cases hh : indexed.headers with
      | nil => exact absurd hh hne
      | cons a l => rfl
    unfold Daemon.get_new_headers
    rw [if_neg (by rw [hempty]; exact Bool.false_ne_true)]
    rw [htip]
    rw [walk_seg chain indexed m hnodup hnonull hprev hknown hm
      chain.length fuel (by omega) (by omega) (by omega)]
    rw [List.take_length]
    simp

/-- Ground-truth chain for the C8 witness: two headers, hashes `[1]`,
`[2]`. -/
def h0W : BlockHeaderM :=
  { prev_blockhash := nullHash, block_hash := [1], bytes := [] }

/-- Second witness header. -/
def h1W : BlockHeaderM :=
  { prev_blockhash := [1], block_hash := [2], bytes := [] }

/-- The witness chain. -/
def chainW : List BlockHeaderM := [h0W, h1W]

/-- C8 witness: with no indexed headers, `get_new_headers` downloads the
whole two-header chain. -/
theorem C8_witness :
    Daemon.get_new_headers (chainOracle chainW) 2 HeaderList.empty [2]
      = some chainW :=
  (C8_get_new_headers chainW [2] 0 2 HeaderList.empty (by decide) (by decide)
    (by decide) (by decide) (by decide)).1 (by decide) (by decide)

/-! ### `SyncChannel::sender` (C9, `util/mod.rs`) -/

/-- An opaque `SyncSender` handle. -/
inductive SenderM (T : Type) where
  | handle

/-- `SyncChannel { tx, rx }`: the OS channel endpoints are opaque; only the
bound given to `sync_channel(size)` is kept. -/
structure SyncChannelM (T : Type) where
  bound : Nat

/-- `SyncChannel::sender`, unfolded to a finite recursion depth: the source
body is `self.sender().clone()` — an unconditional recursive call — so each
unfolding step consumes one unit of fuel and the base case (fuel 0) is
never a returned value (`.clone()` of the recursive result is the identity
on the handle). -/
def SyncChannelM.senderFuel {T : Type} (c : SyncChannelM T) : Nat → Option (SenderM T)
  | 0 => none
  | fuel + 1 => (SyncChannelM.senderFuel c fuel).map (fun sender => sender)

/-- The sender acquisition in `bitcoind_fetcher` (`indexer/fetch.rs`):
`let sender = chan.sender();` before spawning the worker. -/
def bitcoind_fetcher_sender (chan : SyncChannelM (List BlockEntry))
    (fuel : Nat) : Option (SenderM (List BlockEntry)) :=
  SyncChannelM.senderFuel chan fuel

/-- C9: `SyncChannel::sender` never returns — no finite unfolding depth of
its unconditional self-recursion produces a sender; in particular the
bitcoind block fetcher never obtains one. -/
theorem C9_sender_diverges :
    (∀ (T : Type) (c : SyncChannelM T) (fuel : Nat),
      SyncChannelM.senderFuel c fuel = none)
    ∧ (∀ (chan : SyncChannelM (List BlockEntry)) (fuel : Nat),
        bitcoind_fetcher_sender chan fuel = none) := by
  have hmain : ∀ (T : Type) (c : SyncChannelM T) (fuel : Nat),
      SyncChannelM.senderFuel c fuel = none := by
    intro T c fuel
    induction fuel with
    | zero => rfl
    | succ fuel ih => simp [SyncChannelM.senderFuel, ih]
  exact ⟨hmain, fun chan fuel => hmain _ chan fuel⟩

/-! ### `Connection::recv` framing (C10, `daemon/connection.rs`) -/

/-- Digit-list accumulator for `parseNat?`. -/
def parseNatDigits : List Char → Option Nat → Option Nat
  | [], acc => acc
  | c :: cs, acc =>
    if c.isDigit then
      parseNatDigits cs (some ((acc.getD 0) * 10 + (c.toNat - 48)))
    else none

/-- `str.parse::<usize>()` (standard library): decimal digits only. -/
def parseNat? (s : String) : Option Nat := parseNatDigits s.data none

/-- Rust `usize` subtraction: overflow (underflow) is an arithmetic error
(panic under checked arithmetic), not a value. -/
def checkedSub (a b : Nat) : Option Nat :=
  if b ≤ a then some (a - b) else none

/-- Outcome of the `recv` tail: a body, an error-chain failure, or an
arithmetic panic. -/
inductive RecvOutcome where
  | ok (contents : String)
  | err (e : ErrorKind)
  | panicked
deriving DecidableEq

/-- The tail of `Connection::recv` after the line loop: look up
`Content-Length`, parse it, compute `expected_length = contents_length - 1`
(the unguarded `usize` subtraction), compare with the body length
(mismatch is a `Connection` error), then branch on the status line. -/
def Connection.recv_check (status : String)
    (headers : List (String × String)) (contents : String) : RecvOutcome :=
  match headers.lookup "Content-Length" with
  | none => .err (.Msg "Content-Length is missing")
  | some clStr =>
    match parseNat? clStr with
    | none => .err (.Msg "invalid Content-Length")
    | some contents_length =>
      match checkedSub contents_length 1 with
      | none => .panicked
      | some expected_length =>
        if expected_length ≠ contents.length then
          .err (.Connection "expected length mismatch")
        else if status = "HTTP/1.1 200 OK" then .ok contents
        else if status = "HTTP/1.1 500 Internal Server Error" then .ok contents
        else .err (.Msg "request failed")

/-- C10: a response whose `Content-Length` parses to 0 makes the unguarded
`contents_length - 1` subtraction underflow (a panic), not a `Connection`
error; any `Content-Length ≥ 1` avoids the underflow. -/
theorem C10_recv_underflow :
    (∀ (status : String) (headers : List (String × String)) (contents : String),
      headers.lookup "Content-Length" = some "0" →
      Connection.recv_check status headers contents = .panicked)
    ∧ (∀ (status : String) (headers : List (String × String))
          (contents : String) (clStr : String) (cl : Nat),
        headers.lookup "Content-Length" = some clStr →
        parseNat? clStr = some cl → 1 ≤ cl →
        Connection.recv_check status headers contents ≠ .panicked)
    ∧ (∀ e : ErrorKind, RecvOutcome.panicked ≠ .err e) := by
  refine ⟨?_, ?_, ?_⟩
  · intro status headers contents hlk
    unfold Connection.recv_check
    rw [hlk]
    rfl
  · intro status headers contents clStr cl hlk htn hcl
    unfold Connection.recv_check
    rw [hlk]
    show (match parseNat? clStr with
      | none => RecvOutcome.err (.Msg "invalid Content-Length")
      | some contents_length =>
        match checkedSub contents_length 1 with
        | none => RecvOutcome.panicked
        | some expected_length =>
          if expected_length ≠ contents.length then
            RecvOutcome.err (.Connection "expected length mismatch")
          else if status = "HTTP/1.1 200 OK" then RecvOutcome.ok contents
          else if status = "HTTP/1.1 500 Internal Server Error" then
            RecvOutcome.ok contents
          else RecvOutcome.err (.Msg "request failed")) ≠ RecvOutcome.panicked
    rw [htn]
    have hsub : checkedSub cl 1 = some (cl - 1) := by
      simp [checkedSub, hcl]
    show (match checkedSub cl 1 with
      | none => RecvOutcome.panicked
      | some expected_length =>
        if expected_length ≠ contents.length then
          RecvOutcome.err (.Connection "expected length mismatch")
        else if status = "HTTP/1.1 200 OK" then RecvOutcome.ok contents
        else if status = "HTTP/1.1 500 Internal Server Error" then
          RecvOutcome.ok contents
        else RecvOutcome.err (.Msg "request failed")) ≠ RecvOutcome.panicked
    rw [hsub]
    show (if cl - 1 ≠ contents.length then
        RecvOutcome.err (.Connection "expected length mismatch")
      else if status = "HTTP/1.1 200 OK" then RecvOutcome.ok contents
      else if status = "HTTP/1.1 500 Internal Server Error" then
        RecvOutcome.ok contents
      else RecvOutcome.err (.Msg "request failed")) ≠ RecvOutcome.panicked
    split
    · simp
    · split
      · simp
      · split <;> simp
  · intro e h
    exact RecvOutcome.noConfusion h

/-- C10 witness: a concrete response with `Content-Length: 0` panics. -/
theorem C10_witness :
    Connection.recv_check "HTTP/1.1 200 OK" [("Content-Length", "0")] ""
      = .panicked :=
  (C10_recv_underflow).1 "HTTP/1.1 200 OK" [("Content-Length", "0")] "" rfl

end Electrs
